import Mathlib

/-!
Verification of the tlsf-bsd two-level segregated-fit allocator (64-bit
configuration: `__SIZE_WIDTH__ == 64`).

The development shallowly embeds src/tlsf.c and src/tlsf_thread.c:

* machine integers become `Nat` with explicit `% 2^32` / `% 2^64` at the
  points where the C code relies on unsigned wrap-around;
* the physical heap becomes a list of blocks carrying the three header
  components (payload size, FREE bit, PREV_FREE bit) in physical order,
  terminated by the zero-size end sentinel;
* the free-list / bitmap layer is derived from the block list: the code's
  own consistency checker (tlsf_check) demands that a bin's bitmap bit is
  set exactly when some free block maps to that bin, and the free-list
  order only influences which equally-suitable block of a bin is handed
  out, so the model picks the first such block in physical order;
* fallible C functions return `Option`.
-/

namespace Tlsf

/-! ## Constants (values for a 64-bit machine, from tlsf.c / tlsf.h) -/

/-- Word modulus of `size_t` (64-bit model). -/
def WORD : Nat := 2 ^ 64

/-- Modulus of `uint32_t`. -/
def U32 : Nat := 2 ^ 32

def ALIGN_SHIFT : Nat := 3

def ALIGN_SIZE : Nat := 1 <<< ALIGN_SHIFT

def SL_SHIFT : Nat := 5

def SL_COUNT : Nat := 1 <<< SL_SHIFT

def FL_MAX : Nat := 39

def FL_SHIFT : Nat := SL_SHIFT + ALIGN_SHIFT

def FL_COUNT : Nat := FL_MAX - FL_SHIFT + 1

def BLOCK_OVERHEAD : Nat := 8

/-- sizeof(tlsf_block_t) - sizeof(tlsf_block_t *) = 32 - 8 on 64-bit. -/
def BLOCK_SIZE_MIN : Nat := 24

def BLOCK_SIZE_MAX : Nat := 1 <<< (FL_MAX - 1)

def BLOCK_SIZE_SMALL : Nat := 1 <<< FL_SHIFT

def TLSF_MAX_SIZE : Nat := BLOCK_SIZE_MAX - BLOCK_OVERHEAD

def TLSF_SPLIT_THRESHOLD : Nat := BLOCK_SIZE_MIN

/-- sizeof(tlsf_block_t) on a 64-bit machine. -/
def SIZEOF_BLOCK : Nat := 32

/-! ## Bit helpers (C unsigned semantics over Nat) -/

/-- Complement on `uint32_t`. -/
def not32 (x : Nat) : Nat := (U32 - 1) ^^^ x

/-- Complement on `size_t`. -/
def not64 (x : Nat) : Nat := (WORD - 1) ^^^ x

/-- Left shift on `uint32_t` (truncating). -/
def shl32 (x s : Nat) : Nat := (x <<< s) % U32

/-- Fuel-driven binary logarithm; with enough fuel it equals `Nat.log2`
(proved below) while remaining reducible by evaluation. -/
def log2floorAux : Nat → Nat → Nat
  | 0, _ => 0
  | fuel + 1, x => if 2 ≤ x then log2floorAux fuel (x / 2) + 1 else 0

/-- log2floor from tlsf.c (63 - clz on a 64-bit size_t); defined for
x > 0, where it agrees with `Nat.log2`. -/
def log2floor (x : Nat) : Nat := log2floorAux 64 x

theorem log2floorAux_eq (fuel : Nat) :
    ∀ x : Nat, x < 2 ^ fuel → log2floorAux fuel x = Nat.log2 x := by
  induction fuel with
  | zero =>
    intro x hx
    have : x = 0 := by simpa using hx
    subst this
    simp [log2floorAux, Nat.log2]
  | succ n ih =>
    intro x hx
    unfold log2floorAux
    by_cases h2 : 2 ≤ x
    · rw [if_pos h2, ih (x / 2) ?_]
      · conv_rhs => unfold Nat.log2
        rw [if_pos h2]
      · have : x < 2 ^ n * 2 := by
          rw [Nat.pow_succ] at hx; omega
        omega
    · rw [if_neg h2]
      conv_rhs => unfold Nat.log2
      rw [if_neg h2]

theorem log2floor_eq_log2 (x : Nat) (hx : x < 2 ^ 64) :
    log2floor x = Nat.log2 x :=
  log2floorAux_eq 64 x hx

/-- align_up from tlsf.c: `(((x - 1) | (align - 1)) + 1)` on `size_t`,
including the wrap-around at `x = 0`. -/
def align_up (x align : Nat) : Nat :=
  ((((x + (WORD - 1)) % WORD) ||| (align - 1)) + 1) % WORD

/-- adjust_size from tlsf.c.  The oversize check comes BEFORE the
alignment so that values near SIZE_MAX cannot wrap to 0. -/
def adjust_size (size align : Nat) : Nat :=
  if TLSF_MAX_SIZE < size then size
  else
    let s := align_up size align
    if s < BLOCK_SIZE_MIN then BLOCK_SIZE_MIN else s

/-- round_block_size from tlsf.c (branch-free second-level rounding). -/
def round_block_size (size : Nat) : Nat :=
  let lg := log2floor size
  let is_large : Nat := if FL_SHIFT ≤ lg then 1 else 0
  let shift := ((lg + (U32 - SL_SHIFT)) % U32) &&& 63
  let round := (is_large <<< shift) % WORD
  let t := round - is_large
  ((size + t) % WORD) &&& not64 t

/-- mapping from tlsf.c (branch-free size to (fl, sl) bin computation,
with uint32 wrap-around made explicit). -/
def mapping (size : Nat) : Nat × Nat :=
  let t := log2floor size
  let small : Nat := if t < FL_SHIFT then U32 - 1 else 0
  let fl := not32 small &&& ((t + (U32 - FL_SHIFT) + 1) % U32)
  let shift := ((t + (U32 - SL_SHIFT)) % U32) &&& 63
  let sl_large := ((size >>> shift) % U32) ^^^ SL_COUNT
  let sl_small := (size >>> ALIGN_SHIFT) % U32
  let sl := (not32 small &&& sl_large) ||| (small &&& sl_small)
  (fl, sl)

/-- mapping_size from tlsf.c: minimum block size of bin (fl, sl). -/
def mapping_size (fl sl : Nat) : Nat :=
  if fl = 0 then sl * (BLOCK_SIZE_SMALL / SL_COUNT)
  else
    let size := 1 <<< (fl + FL_SHIFT - 1)
    size + sl * (size >>> SL_SHIFT)

/-! ## Characterization of the arithmetic layer -/

theorem BSS_eq : BLOCK_SIZE_SMALL = 256 := rfl

theorem BSM_eq : BLOCK_SIZE_MAX = 2 ^ 38 := rfl

theorem BSMIN_eq : BLOCK_SIZE_MIN = 24 := rfl

theorem MAXSZ_eq : TLSF_MAX_SIZE = 2 ^ 38 - 8 := rfl

theorem U32_eq : U32 = 2 ^ 32 := rfl

theorem WORD_eq : WORD = 2 ^ 64 := rfl

theorem FLC_eq : FL_COUNT = 32 := rfl

theorem SLC_eq : SL_COUNT = 32 := rfl

theorem ALSZ_eq : ALIGN_SIZE = 8 := rfl

theorem OVH_eq : BLOCK_OVERHEAD = 8 := rfl

theorem log2floor_le_of_le (k x : Nat) (h1 : 2 ^ k ≤ x) (h2 : x < 2 ^ 64) :
    k ≤ log2floor x := by
  rw [log2floor_eq_log2 x h2, Nat.log2_eq_log_two]
  have hx : x ≠ 0 := by
    have := Nat.pos_pow_of_pos k (show 0 < 2 by norm_num)
    omega
  exact (Nat.pow_le_iff_le_log one_lt_two hx).mp h1

theorem log2floor_lt_of_lt (k x : Nat) (h0 : 1 ≤ x) (h1 : x < 2 ^ (k + 1))
    (h2 : x < 2 ^ 64) : log2floor x ≤ k := by
  rw [log2floor_eq_log2 x h2, Nat.log2_eq_log_two]
  exact Nat.lt_succ_iff.mp (Nat.log_lt_of_lt_pow (by omega) h1)

theorem log2floor_bounds (x : Nat) (h0 : 1 ≤ x) (h2 : x < 2 ^ 64) :
    2 ^ log2floor x ≤ x ∧ x < 2 ^ (log2floor x + 1) := by
  rw [log2floor_eq_log2 x h2, Nat.log2_eq_log_two]
  exact ⟨Nat.pow_log_le_self 2 (by omega), Nat.lt_pow_succ_log_self one_lt_two x⟩

theorem and_mask32 (x : Nat) (h : x < U32) : (U32 - 1) &&& x = x := by
  rw [Nat.and_comm, U32_eq, Nat.and_pow_two_sub_one_eq_mod]
  exact Nat.mod_eq_of_lt (U32_eq ▸ h)

theorem and_mask63 (x : Nat) (h : x < 64) : x &&& 63 = x := by
  have h1 : x &&& (2 ^ 6 - 1) = x % 2 ^ 6 := Nat.and_pow_two_sub_one_eq_mod x 6
  norm_num at h1
  rw [h1]
  exact Nat.mod_eq_of_lt h

theorem xor32_of_ge (x : Nat) (h1 : 32 ≤ x) (h2 : x < 64) : x ^^^ 32 = x - 32 := by
  interval_cases x <;> rfl

theorem div_pow_bounds (s t : Nat) (h5 : 5 ≤ t) (hl : 2 ^ t ≤ s)
    (hu : s < 2 ^ (t + 1)) : 32 ≤ s / 2 ^ (t - 5) ∧ s / 2 ^ (t - 5) < 64 := by
  have hp : 0 < 2 ^ (t - 5) := Nat.pos_pow_of_pos _ (by omega)
  constructor
  · rw [Nat.le_div_iff_mul_le hp]
    calc 32 * 2 ^ (t - 5) = 2 ^ 5 * 2 ^ (t - 5) := by norm_num
    _ = 2 ^ (5 + (t - 5)) := by rw [Nat.pow_add]
    _ = 2 ^ t := by congr 1; omega
    _ ≤ s := hl
  · rw [Nat.div_lt_iff_lt_mul hp]
    calc s < 2 ^ (t + 1) := hu
    _ = 2 ^ (6 + (t - 5)) := by congr 1; omega
    _ = 2 ^ 6 * 2 ^ (t - 5) := by rw [Nat.pow_add]
    _ = 64 * 2 ^ (t - 5) := by norm_num

theorem mapping_small (s : Nat) (h1 : 1 ≤ s) (h2 : s < BLOCK_SIZE_SMALL) :
    mapping s = (0, s >>> ALIGN_SHIFT) := by
  rw [BSS_eq] at h2
  have hs64 : s < 2 ^ 64 := by norm_num; omega
  have ht : log2floor s < 8 := by
    have h7 : log2floor s ≤ 7 := by
      apply log2floor_lt_of_lt 7 s h1 _ hs64
      norm_num
      omega
    omega
  have hsmall : (if log2floor s < FL_SHIFT then U32 - 1 else 0) = U32 - 1 := by
    rw [if_pos]; show log2floor s < 8; exact ht
  have hshr : s >>> ALIGN_SHIFT < U32 := by
    rw [Nat.shiftRight_eq_div_pow, U32_eq]
    have := Nat.div_le_self s (2 ^ ALIGN_SHIFT)
    norm_num
    omega
  simp only [mapping, hsmall, not32, Nat.xor_self, Nat.zero_and, Nat.zero_or]
  refine Prod.ext rfl ?_
  show (U32 - 1) &&& (s >>> ALIGN_SHIFT) % U32 = s >>> ALIGN_SHIFT
  rw [Nat.mod_eq_of_lt hshr, and_mask32 _ hshr]

theorem mapping_large (s : Nat) (h1 : BLOCK_SIZE_SMALL ≤ s)
    (h2 : s ≤ BLOCK_SIZE_MAX) :
    mapping s = (log2floor s - 7, (s >>> (log2floor s - 5)) ^^^ 32) := by
  rw [BSS_eq] at h1
  rw [BSM_eq] at h2
  have hs64 : s < 2 ^ 64 := by norm_num at h2 ⊢; omega
  have h256 : (2 : Nat) ^ 8 ≤ s := by norm_num; omega
  have ht8 : 8 ≤ log2floor s := log2floor_le_of_le 8 s h256 hs64
  have ht38 : log2floor s ≤ 38 := by
    apply log2floor_lt_of_lt 38 s (by omega) _ hs64
    norm_num at h2 ⊢
    omega
  set t := log2floor s with hT
  have hU32 : (4294967296 : Nat) = U32 := rfl
  have hsmall : (if t < FL_SHIFT then U32 - 1 else 0) = 0 := by
    rw [if_neg]; show ¬ t < 8; omega
  have hbounds := log2floor_bounds s (by omega) hs64
  have hdiv := div_pow_bounds s t (by omega) hbounds.1 hbounds.2
  have hshr_eq : s >>> (t - 5) = s / 2 ^ (t - 5) := Nat.shiftRight_eq_div_pow s _
  -- the fl computation: (t + (U32 - 8) + 1) mod U32 = t - 7
  have hfl_mod : (t + (U32 - FL_SHIFT) + 1) % U32 = t - 7 := by
    have hrw : t + (U32 - FL_SHIFT) + 1 = U32 + (t - 7) := by
      show t + (U32 - 8) + 1 = U32 + (t - 7)
      omega
    rw [hrw, Nat.add_mod_left]
    exact Nat.mod_eq_of_lt (by omega)
  have hsh_mod : (t + (U32 - SL_SHIFT)) % U32 = t - 5 := by
    have hrw : t + (U32 - SL_SHIFT) = U32 + (t - 5) := by
      show t + (U32 - 5) = U32 + (t - 5)
      omega
    rw [hrw, Nat.add_mod_left]
    exact Nat.mod_eq_of_lt (by omega)
  have hfl_lt : t - 7 < U32 := by omega
  have hshift : ((t + (U32 - SL_SHIFT)) % U32) &&& 63 = t - 5 := by
    rw [hsh_mod, and_mask63 _ (by omega)]
  have hv_lt : s >>> (t - 5) < 64 := by rw [hshr_eq]; exact hdiv.2
  have hv_mod : (s >>> (t - 5)) % U32 = s >>> (t - 5) := by
    exact Nat.mod_eq_of_lt (by omega)
  have hxor_lt : (s >>> (t - 5)) ^^^ 32 < U32 := by
    rw [U32_eq]
    exact Nat.xor_lt_two_pow (by omega) (by norm_num)
  simp only [mapping, hsmall, not32, Nat.xor_zero, hshift]
  refine Prod.ext ?_ ?_
  · show (U32 - 1) &&& ((t + (U32 - FL_SHIFT) + 1) % U32) = t - 7
    rw [hfl_mod, and_mask32 _ hfl_lt]
  · show ((U32 - 1) &&& ((s >>> (t - 5)) % U32 ^^^ SL_COUNT)) ||| (0 &&& _) =
      (s >>> (t - 5)) ^^^ 32
    rw [Nat.zero_and, Nat.or_zero, hv_mod]
    exact and_mask32 _ hxor_lt

/-- Semantic form of the large-size branch of the mapping. -/
theorem mapping_large_eq (s : Nat) (h1 : BLOCK_SIZE_SMALL ≤ s)
    (h2 : s ≤ BLOCK_SIZE_MAX) :
    mapping s = (log2floor s - 7, s / 2 ^ (log2floor s - 5) - 32) := by
  rw [mapping_large s h1 h2]
  rw [BSS_eq] at h1
  rw [BSM_eq] at h2
  have hs64 : s < 2 ^ 64 := by norm_num at h2 ⊢; omega
  have hbounds := log2floor_bounds s (by omega) hs64
  have ht8 : 8 ≤ log2floor s :=
    log2floor_le_of_le 8 s (by norm_num; omega) hs64
  have hdiv := div_pow_bounds s (log2floor s) (by omega) hbounds.1 hbounds.2
  have hshr_eq : s >>> (log2floor s - 5) = s / 2 ^ (log2floor s - 5) :=
    Nat.shiftRight_eq_div_pow s _
  rw [hshr_eq, xor32_of_ge _ hdiv.1 hdiv.2]

theorem mapping_bounds (s : Nat) (h1 : 1 ≤ s) (h2 : s ≤ BLOCK_SIZE_MAX) :
    (mapping s).1 < FL_COUNT ∧ (mapping s).2 < SL_COUNT := by
  by_cases hs : s < BLOCK_SIZE_SMALL
  · rw [mapping_small s h1 hs]
    rw [BSS_eq] at hs
    constructor
    · rw [FLC_eq]; norm_num
    · show s >>> ALIGN_SHIFT < SL_COUNT
      have hd : s >>> ALIGN_SHIFT = s / 2 ^ 3 := Nat.shiftRight_eq_div_pow s _
      rw [hd, SLC_eq]
      omega
  · push_neg at hs
    rw [mapping_large_eq s hs h2]
    rw [BSS_eq] at hs
    rw [BSM_eq] at h2
    have hs64 : s < 2 ^ 64 := by norm_num at h2 ⊢; omega
    have hbounds := log2floor_bounds s (by omega) hs64
    have ht8 : 8 ≤ log2floor s :=
      log2floor_le_of_le 8 s (by norm_num; omega) hs64
    have ht38 : log2floor s ≤ 38 := by
      apply log2floor_lt_of_lt 38 s (by omega) _ hs64
      norm_num at h2 ⊢
      omega
    have hdiv := div_pow_bounds s (log2floor s) (by omega) hbounds.1 hbounds.2
    constructor
    · show log2floor s - 7 < FL_COUNT; rw [FLC_eq]; omega
    · show s / 2 ^ (log2floor s - 5) - 32 < SL_COUNT; rw [SLC_eq]; omega

theorem lor_low_mask (y j : Nat) :
    y ||| (2 ^ j - 1) = 2 ^ j * (y / 2 ^ j) + (2 ^ j - 1) := by
  apply Nat.eq_of_testBit_eq
  intro i
  have hb : 2 ^ j - 1 < 2 ^ j := by
    have := Nat.pos_pow_of_pos j (show 0 < 2 by norm_num)
    omega
  have key := Nat.testBit_mul_pow_two_add (y / 2 ^ j) hb i
  rw [Nat.testBit_or, key]
  by_cases hij : i < j
  · simp [Nat.testBit_two_pow_sub_one, hij]
  · have hd : y / 2 ^ j = y >>> j := (Nat.shiftRight_eq_div_pow y j).symm
    simp only [Nat.testBit_two_pow_sub_one, if_neg hij, decide_eq_true_eq]
    rw [hd, Nat.testBit_shiftRight]
    have hji : j + (i - j) = i := by omega
    rw [hji]
    simp [hij]

theorem and_clear_mask (y k : Nat) (hy : y < 2 ^ 64) (hk : k ≤ 64) :
    y &&& not64 (2 ^ k - 1) = 2 ^ k * (y / 2 ^ k) := by
  apply Nat.eq_of_testBit_eq
  intro i
  have hrhs : 2 ^ k * (y / 2 ^ k) = (y >>> k) <<< k := by
    rw [Nat.shiftRight_eq_div_pow, Nat.shiftLeft_eq, Nat.mul_comm]
  rw [Nat.testBit_and, not64, WORD_eq, Nat.testBit_xor,
    Nat.testBit_two_pow_sub_one, Nat.testBit_two_pow_sub_one, hrhs,
    Nat.testBit_shiftLeft]
  by_cases h64 : i < 64
  · by_cases hik : i < k
    · simp [hik, h64, show ¬ k ≤ i by omega]
    · have hki : k + (i - k) = i := by omega
      simp [hik, h64, show k ≤ i by omega, Nat.testBit_shiftRight, hki]
  · have hyi : y.testBit i = false := by
      apply Nat.testBit_lt_two_pow
      calc y < 2 ^ 64 := hy
      _ ≤ 2 ^ i := Nat.pow_le_pow_right (by norm_num) (by omega)
    have hki : k + (i - k) = i := by omega
    simp [hyi, show ¬ i < 64 by omega, Nat.testBit_shiftRight, hki]

/-- Characterization of align_up for power-of-two alignment: the branch-free
bit trick computes the usual rounded-up value. -/
theorem align_up_eq (x j : Nat) (hx : 1 ≤ x) (hb : x + 2 ^ j ≤ 2 ^ 64) :
    align_up x (2 ^ j) = 2 ^ j * ((x - 1) / 2 ^ j) + 2 ^ j := by
  have hp : 0 < 2 ^ j := Nat.pos_pow_of_pos j (by norm_num)
  have h1 : (x + (WORD - 1)) % WORD = x - 1 := by
    have hr : x + (WORD - 1) = WORD + (x - 1) := by rw [WORD_eq]; omega
    rw [hr, Nat.add_mod_left]
    apply Nat.mod_eq_of_lt
    rw [WORD_eq]
    have := Nat.pos_pow_of_pos 64 (show 0 < 2 by norm_num)
    omega
  have h2 : (x - 1) ||| (2 ^ j - 1) = 2 ^ j * ((x - 1) / 2 ^ j) + (2 ^ j - 1) :=
    lor_low_mask (x - 1) j
  rw [align_up, h1, h2]
  have h3 : 2 ^ j * ((x - 1) / 2 ^ j) + (2 ^ j - 1) + 1 =
      2 ^ j * ((x - 1) / 2 ^ j) + 2 ^ j := by omega
  rw [h3]
  apply Nat.mod_eq_of_lt
  rw [WORD_eq]
  have hd : 2 ^ j * ((x - 1) / 2 ^ j) ≤ x - 1 := by
    rw [Nat.mul_comm]; exact Nat.div_mul_le_self _ _
  omega

theorem align_up_ge (x j : Nat) (hx : 1 ≤ x) (hb : x + 2 ^ j ≤ 2 ^ 64) :
    x ≤ align_up x (2 ^ j) := by
  rw [align_up_eq x j hx hb]
  have hp : 0 < 2 ^ j := Nat.pos_pow_of_pos j (by norm_num)
  have hdm := Nat.div_add_mod (x - 1) (2 ^ j)
  have hml : (x - 1) % 2 ^ j < 2 ^ j := Nat.mod_lt _ hp
  omega

theorem align_up_le (x j : Nat) (hx : 1 ≤ x) (hb : x + 2 ^ j ≤ 2 ^ 64) :
    align_up x (2 ^ j) ≤ x + 2 ^ j - 1 := by
  rw [align_up_eq x j hx hb]
  have hd : 2 ^ j * ((x - 1) / 2 ^ j) ≤ x - 1 := by
    rw [Nat.mul_comm]; exact Nat.div_mul_le_self _ _
  omega

theorem align_up_dvd (x j : Nat) (hx : 1 ≤ x) (hb : x + 2 ^ j ≤ 2 ^ 64) :
    2 ^ j ∣ align_up x (2 ^ j) := by
  rw [align_up_eq x j hx hb]
  exact ⟨(x - 1) / 2 ^ j + 1, by ring⟩

theorem align_up_of_dvd (x j : Nat) (hx : 1 ≤ x) (hb : x + 2 ^ j ≤ 2 ^ 64)
    (hdvd : 2 ^ j ∣ x) : align_up x (2 ^ j) = x := by
  obtain ⟨d, hd⟩ := hdvd
  have hp : 0 < 2 ^ j := Nat.pos_pow_of_pos j (by norm_num)
  have hd1 : 1 ≤ d := by
    rcases Nat.eq_zero_or_pos d with h0 | h1
    · subst h0; simp at hd; omega
    · exact h1
  rw [align_up_eq x j hx hb, hd]
  have e7 : 2 ^ j * d = 2 ^ j * (d - 1) + 2 ^ j := by
    cases d with
    | zero => omega
    | succ n => simp [Nat.mul_succ]
  have hq : (2 ^ j * d - 1) / 2 ^ j = d - 1 := by
    have hrw : 2 ^ j * d - 1 = 2 ^ j * (d - 1) + (2 ^ j - 1) := by omega
    rw [hrw, Nat.mul_add_div hp, Nat.div_eq_of_lt (by omega)]
    omega
  rw [hq]
  omega

theorem ALSZ_pow : ALIGN_SIZE = 2 ^ 3 := rfl

theorem adjust_size_oversize (n : Nat) (h : TLSF_MAX_SIZE < n) :
    adjust_size n ALIGN_SIZE = n := by
  rw [adjust_size, if_pos h]

theorem adjust_size_zero : adjust_size 0 ALIGN_SIZE = BLOCK_SIZE_MIN := by decide

/-- For in-range requests the adjusted size is the request rounded up to a
multiple of ALIGN, clamped from below by the minimum block size, and it
stays within the global bound. -/
theorem adjust_size_spec (n : Nat) (h : n ≤ TLSF_MAX_SIZE) :
    n ≤ adjust_size n ALIGN_SIZE ∧
    adjust_size n ALIGN_SIZE ≤ TLSF_MAX_SIZE ∧
    BLOCK_SIZE_MIN ≤ adjust_size n ALIGN_SIZE ∧
    8 ∣ adjust_size n ALIGN_SIZE ∧
    adjust_size n ALIGN_SIZE ≤ max n BLOCK_SIZE_MIN + 7 := by
  rcases Nat.eq_zero_or_pos n with h0 | h1
  · subst h0
    rw [adjust_size_zero, BSMIN_eq, MAXSZ_eq]
    norm_num
  · rw [MAXSZ_eq] at h
    have hb : n + 2 ^ 3 ≤ 2 ^ 64 := by norm_num at h ⊢; omega
    have hup_ge := align_up_ge n 3 h1 hb
    have hup_le := align_up_le n 3 h1 hb
    have hup_dvd := align_up_dvd n 3 h1 hb
    have hnotover : ¬ TLSF_MAX_SIZE < n := by rw [MAXSZ_eq]; omega
    rw [adjust_size, if_neg hnotover, ALSZ_pow]
    obtain ⟨c, hc⟩ := hup_dvd
    have hcmax : align_up n (2 ^ 3) ≤ 2 ^ 38 - 8 := by
      have h1c : (2:Nat) ^ 3 * c ≤ n + 7 := by
        rw [← hc]; norm_num at hup_le ⊢; omega
      have h2c : c ≤ 2 ^ 35 - 1 := by norm_num at h1c h ⊢; omega
      have : (2:Nat) ^ 3 * c ≤ 2 ^ 3 * (2 ^ 35 - 1) := Nat.mul_le_mul_left _ h2c
      rw [hc]
      norm_num at this ⊢
      omega
    by_cases hmin : align_up n (2 ^ 3) < BLOCK_SIZE_MIN
    · rw [if_pos hmin]
      rw [BSMIN_eq] at hmin ⊢
      rw [MAXSZ_eq]
      have hm := le_max_right n 24
      refine ⟨by omega, by norm_num, le_refl _, by norm_num, ?_⟩
      omega
    · rw [if_neg hmin]
      rw [BSMIN_eq] at hmin ⊢
      rw [MAXSZ_eq]
      push_neg at hmin
      have hm := le_max_left n 24
      refine ⟨hup_ge, hcmax, hmin, ⟨c, hc⟩, ?_⟩
      omega

theorem shift_mask_aux (t : Nat) (h5 : 5 ≤ t) (h38 : t ≤ 38) :
    ((t + (U32 - SL_SHIFT)) % U32) &&& 63 = t - 5 := by
  have hU32 : (4294967296 : Nat) = U32 := rfl
  have hrw : t + (U32 - SL_SHIFT) = U32 + (t - 5) := by
    show t + (U32 - 5) = U32 + (t - 5)
    omega
  rw [hrw, Nat.add_mod_left, Nat.mod_eq_of_lt (by omega), and_mask63 _ (by omega)]

theorem round_small (s : Nat) (h1 : 1 ≤ s) (h2 : s < BLOCK_SIZE_SMALL) :
    round_block_size s = s := by
  rw [BSS_eq] at h2
  have hs64 : s < 2 ^ 64 := by norm_num; omega
  have ht : log2floor s ≤ 7 := by
    apply log2floor_lt_of_lt 7 s h1 _ hs64
    norm_num
    omega
  have hlarge : (if FL_SHIFT ≤ log2floor s then (1 : Nat) else 0) = 0 := by
    rw [if_neg]; show ¬ 8 ≤ log2floor s; omega
  simp only [round_block_size, hlarge, Nat.zero_shiftLeft, Nat.zero_mod,
    Nat.zero_sub, Nat.add_zero]
  rw [Nat.mod_eq_of_lt (by rw [WORD_eq]; omega), not64, Nat.xor_zero, WORD_eq,
    Nat.and_pow_two_sub_one_eq_mod]
  exact Nat.mod_eq_of_lt hs64

theorem round_large_eq (s : Nat) (h1 : BLOCK_SIZE_SMALL ≤ s)
    (h2 : s ≤ 2 ^ 38) :
    round_block_size s =
      2 ^ (log2floor s - 5) * ((s + 2 ^ (log2floor s - 5) - 1) / 2 ^ (log2floor s - 5)) := by
  rw [BSS_eq] at h1
  have hs64 : s < 2 ^ 64 := by norm_num at h2 ⊢; omega
  have ht8 : 8 ≤ log2floor s :=
    log2floor_le_of_le 8 s (by norm_num; omega) hs64
  have ht37 : log2floor s ≤ 38 := by
    apply log2floor_lt_of_lt 38 s (by omega) _ hs64
    norm_num at h2 ⊢
    omega
  set t := log2floor s with hT
  have hlarge : (if FL_SHIFT ≤ t then (1 : Nat) else 0) = 1 := by
    rw [if_pos]; show 8 ≤ t; omega
  have hk64 : t - 5 ≤ 64 := by omega
  have hpow_le : (2 : Nat) ^ (t - 5) ≤ 2 ^ 33 :=
    Nat.pow_le_pow_right (by norm_num) (by omega)
  simp only [round_block_size, hlarge, ← hT, shift_mask_aux t (by omega) (by omega)]
  have hshl : ((1 : Nat) <<< (t - 5)) % WORD = 2 ^ (t - 5) := by
    rw [Nat.shiftLeft_eq, Nat.one_mul]
    apply Nat.mod_eq_of_lt
    rw [WORD_eq]
    calc (2 : Nat) ^ (t - 5) ≤ 2 ^ 33 := hpow_le
    _ < 2 ^ 64 := by norm_num
  rw [hshl]
  have hmod : (s + (2 ^ (t - 5) - 1)) % WORD = s + 2 ^ (t - 5) - 1 := by
    have hp : (0 : Nat) < 2 ^ (t - 5) := Nat.pos_pow_of_pos _ (by norm_num)
    have : s + (2 ^ (t - 5) - 1) = s + 2 ^ (t - 5) - 1 := by omega
    rw [this]
    apply Nat.mod_eq_of_lt
    rw [WORD_eq]
    norm_num at h2 hpow_le ⊢
    omega
  rw [hmod]
  exact and_clear_mask _ _ (by
    have hp : (0 : Nat) < 2 ^ (t - 5) := Nat.pos_pow_of_pos _ (by norm_num)
    norm_num at h2 hpow_le ⊢
    omega) hk64

theorem round_ge (s : Nat) (h1 : 1 ≤ s) (h2 : s ≤ BLOCK_SIZE_MAX) :
    s ≤ round_block_size s := by
  by_cases hs : s < BLOCK_SIZE_SMALL
  · rw [round_small s h1 hs]
  · push_neg at hs
    have h38 : s ≤ 2 ^ 38 := by rw [BSM_eq] at h2; exact h2
    rw [round_large_eq s hs h38]
    have hp : (0 : Nat) < 2 ^ (log2floor s - 5) := Nat.pos_pow_of_pos _ (by norm_num)
    have hdm := Nat.div_add_mod (s + 2 ^ (log2floor s - 5) - 1) (2 ^ (log2floor s - 5))
    have hml := Nat.mod_lt (s + 2 ^ (log2floor s - 5) - 1) hp
    omega

theorem round_le (s : Nat) (h1 : BLOCK_SIZE_SMALL ≤ s) (h2 : s ≤ 2 ^ 38) :
    round_block_size s ≤ s + 2 ^ (log2floor s - 5) - 1 := by
  rw [round_large_eq s h1 h2]
  have := Nat.div_mul_le_self (s + 2 ^ (log2floor s - 5) - 1) (2 ^ (log2floor s - 5))
  calc 2 ^ (log2floor s - 5) * ((s + 2 ^ (log2floor s - 5) - 1) / 2 ^ (log2floor s - 5))
      = (s + 2 ^ (log2floor s - 5) - 1) / 2 ^ (log2floor s - 5) * 2 ^ (log2floor s - 5) := by
        ring
  _ ≤ s + 2 ^ (log2floor s - 5) - 1 := this

theorem round_le_max (s : Nat) (h1 : 1 ≤ s) (h2 : s ≤ BLOCK_SIZE_MAX) :
    round_block_size s ≤ BLOCK_SIZE_MAX := by
  by_cases hs : s < BLOCK_SIZE_SMALL
  · rw [round_small s h1 hs, BSM_eq]
    rw [BSS_eq] at hs
    norm_num
    omega
  · push_neg at hs
    have h38 : s ≤ 2 ^ 38 := by rw [BSM_eq] at h2; exact h2
    rw [round_large_eq s hs h38, BSM_eq]
    set k := log2floor s - 5 with hk
    have hs64 : s < 2 ^ 64 := by norm_num at h38 ⊢; omega
    have ht38' : log2floor s ≤ 38 := by
      apply log2floor_lt_of_lt 38 s (by omega) _ hs64
      norm_num at h38 ⊢
      omega
    have hk32 : k ≤ 33 := by omega
    have hp : (0 : Nat) < 2 ^ k := Nat.pos_pow_of_pos _ (by norm_num)
    have hq : (s + 2 ^ k - 1) / 2 ^ k ≤ 2 ^ (38 - k) := by
      have hlt : (s + 2 ^ k - 1) / 2 ^ k < 2 ^ (38 - k) + 1 := by
        rw [Nat.div_lt_iff_lt_mul hp]
        have he : (2 ^ (38 - k) + 1) * 2 ^ k = 2 ^ 38 + 2 ^ k := by
          have : (38 - k) + k = 38 := by omega
          calc (2 ^ (38 - k) + 1) * 2 ^ k = 2 ^ (38 - k) * 2 ^ k + 2 ^ k := by ring
          _ = 2 ^ ((38 - k) + k) + 2 ^ k := by rw [Nat.pow_add]
          _ = 2 ^ 38 + 2 ^ k := by rw [this]
        omega
      omega
    calc 2 ^ k * ((s + 2 ^ k - 1) / 2 ^ k) ≤ 2 ^ k * 2 ^ (38 - k) :=
      Nat.mul_le_mul_left _ hq
    _ = 2 ^ (k + (38 - k)) := by rw [Nat.pow_add]
    _ = 2 ^ 38 := by congr 1; omega
theorem mapping_size_zero_eq (sl : Nat) : mapping_size 0 sl = 8 * sl := by
  rw [mapping_size, if_pos rfl]
  show sl * (BLOCK_SIZE_SMALL / SL_COUNT) = 8 * sl
  show sl * 8 = 8 * sl
  ring

theorem mapping_size_pos_eq (fl sl : Nat) (h : 1 ≤ fl) :
    mapping_size fl sl = 2 ^ (fl + 7) + sl * 2 ^ (fl + 2) := by
  rw [mapping_size, if_neg (by omega)]
  have hF : FL_SHIFT = 8 := rfl
  have h1 : (1 : Nat) <<< (fl + FL_SHIFT - 1) = 2 ^ (fl + 7) := by
    rw [Nat.shiftLeft_eq, Nat.one_mul, hF]
    congr 1
  show (1 : Nat) <<< (fl + FL_SHIFT - 1) +
      sl * ((1 : Nat) <<< (fl + FL_SHIFT - 1) >>> SL_SHIFT) = _
  rw [h1]
  congr 1
  rw [Nat.shiftRight_eq_div_pow]
  congr 1
  show 2 ^ (fl + 7) / 2 ^ 5 = 2 ^ (fl + 2)
  rw [Nat.pow_div (by omega) (by norm_num)]
  congr 1

theorem mapping_size_mono_sl (fl sl sl' : Nat) (h : sl ≤ sl') :
    mapping_size fl sl ≤ mapping_size fl sl' := by
  rcases Nat.eq_zero_or_pos fl with h0 | h1
  · subst h0
    rw [mapping_size_zero_eq, mapping_size_zero_eq]
    exact Nat.mul_le_mul_left _ h
  · rw [mapping_size_pos_eq fl sl h1, mapping_size_pos_eq fl sl' h1]
    have := Nat.mul_le_mul_right (2 ^ (fl + 2)) h
    omega

theorem mapping_size_fl_lower (fl sl : Nat) (h : 1 ≤ fl) :
    2 ^ (fl + 7) ≤ mapping_size fl sl := by
  rw [mapping_size_pos_eq fl sl h]
  omega

/-- Class upper bound: a size mapping to first level fl is below 2^(fl+8). -/
theorem mapping_class_upper (s : Nat) (h1 : 1 ≤ s) (h2 : s ≤ BLOCK_SIZE_MAX) :
    s < 2 ^ ((mapping s).1 + 8) := by
  by_cases hs : s < BLOCK_SIZE_SMALL
  · rw [mapping_small s h1 hs]
    rw [BSS_eq] at hs
    norm_num
    omega
  · push_neg at hs
    rw [mapping_large_eq s hs h2]
    rw [BSS_eq] at hs
    rw [BSM_eq] at h2
    have hs64 : s < 2 ^ 64 := by norm_num at h2 ⊢; omega
    have ht8 : 8 ≤ log2floor s := log2floor_le_of_le 8 s (by norm_num; omega) hs64
    have hb := log2floor_bounds s (by omega) hs64
    have hE : log2floor s - 7 + 8 = log2floor s + 1 := by omega
    show s < 2 ^ (log2floor s - 7 + 8)
    rw [hE]
    exact hb.2

/-- The minimum size of the bin a size maps to never exceeds the size. -/
theorem mapping_size_mapping_le (s : Nat) (h1 : 1 ≤ s) (h2 : s ≤ BLOCK_SIZE_MAX) :
    mapping_size (mapping s).1 (mapping s).2 ≤ s := by
  by_cases hs : s < BLOCK_SIZE_SMALL
  · rw [mapping_small s h1 hs]
    show mapping_size 0 (s >>> ALIGN_SHIFT) ≤ s
    rw [mapping_size_zero_eq, Nat.shiftRight_eq_div_pow]
    show 8 * (s / 2 ^ 3) ≤ s
    have hd := Nat.div_mul_le_self s (2 ^ 3)
    have h8 : s / 2 ^ 3 * 2 ^ 3 = 8 * (s / 2 ^ 3) := by ring
    omega
  · push_neg at hs
    rw [mapping_large_eq s hs h2]
    rw [BSS_eq] at hs
    rw [BSM_eq] at h2
    have hs64 : s < 2 ^ 64 := by norm_num at h2 ⊢; omega
    have ht8 : 8 ≤ log2floor s := log2floor_le_of_le 8 s (by norm_num; omega) hs64
    have hb := log2floor_bounds s (by omega) hs64
    have hdiv := div_pow_bounds s (log2floor s) (by omega) hb.1 hb.2
    set t := log2floor s with hT
    show mapping_size (t - 7) (s / 2 ^ (t - 5) - 32) ≤ s
    rw [mapping_size_pos_eq _ _ (by omega)]
    have e1 : t - 7 + 7 = t := by omega
    have e2 : t - 7 + 2 = t - 5 := by omega
    rw [e1, e2]
    have e3 : (s / 2 ^ (t - 5) - 32) * 2 ^ (t - 5) =
        s / 2 ^ (t - 5) * 2 ^ (t - 5) - 32 * 2 ^ (t - 5) := by
      rw [Nat.sub_mul]
    have e4 : (32 : Nat) * 2 ^ (t - 5) = 2 ^ t := by
      calc (32 : Nat) * 2 ^ (t - 5) = 2 ^ 5 * 2 ^ (t - 5) := by norm_num
      _ = 2 ^ (5 + (t - 5)) := by rw [Nat.pow_add]
      _ = 2 ^ t := by congr 1; omega
    have e5 : 32 * 2 ^ (t - 5) ≤ s / 2 ^ (t - 5) * 2 ^ (t - 5) :=
      Nat.mul_le_mul_right _ hdiv.1
    have e6 : s / 2 ^ (t - 5) * 2 ^ (t - 5) ≤ s := Nat.div_mul_le_self _ _
    omega

/-- A size that is a multiple of its bin granularity is exactly its bin's
minimum size. -/
theorem mapping_size_mapping_eq (r : Nat) (h1 : 1 ≤ r) (h2 : r ≤ BLOCK_SIZE_MAX)
    (hdvd : (if r < BLOCK_SIZE_SMALL then (8 : Nat) else 2 ^ (log2floor r - 5)) ∣ r) :
    mapping_size (mapping r).1 (mapping r).2 = r := by
  by_cases hs : r < BLOCK_SIZE_SMALL
  · rw [if_pos hs] at hdvd
    rw [mapping_small r h1 hs]
    show mapping_size 0 (r >>> ALIGN_SHIFT) = r
    rw [mapping_size_zero_eq, Nat.shiftRight_eq_div_pow]
    obtain ⟨c, hc⟩ := hdvd
    subst hc
    show 8 * (8 * c / 2 ^ 3) = 8 * c
    congr 1
    rw [show (2 : Nat) ^ 3 = 8 by norm_num]
    exact Nat.mul_div_cancel_left c (by norm_num)
  · rw [if_neg hs] at hdvd
    push_neg at hs
    rw [mapping_large_eq r hs h2]
    rw [BSS_eq] at hs
    rw [BSM_eq] at h2
    have hs64 : r < 2 ^ 64 := by norm_num at h2 ⊢; omega
    have ht8 : 8 ≤ log2floor r := log2floor_le_of_le 8 r (by norm_num; omega) hs64
    have hb := log2floor_bounds r (by omega) hs64
    have hdiv := div_pow_bounds r (log2floor r) (by omega) hb.1 hb.2
    set t := log2floor r with hT
    show mapping_size (t - 7) (r / 2 ^ (t - 5) - 32) = r
    rw [mapping_size_pos_eq _ _ (by omega)]
    have e1 : t - 7 + 7 = t := by omega
    have e2 : t - 7 + 2 = t - 5 := by omega
    rw [e1, e2]
    have e3 : (r / 2 ^ (t - 5) - 32) * 2 ^ (t - 5) =
        r / 2 ^ (t - 5) * 2 ^ (t - 5) - 32 * 2 ^ (t - 5) := by
      rw [Nat.sub_mul]
    have e4 : (32 : Nat) * 2 ^ (t - 5) = 2 ^ t := by
      calc (32 : Nat) * 2 ^ (t - 5) = 2 ^ 5 * 2 ^ (t - 5) := by norm_num
      _ = 2 ^ (5 + (t - 5)) := by rw [Nat.pow_add]
      _ = 2 ^ t := by congr 1; omega
    have e5 : 32 * 2 ^ (t - 5) ≤ r / 2 ^ (t - 5) * 2 ^ (t - 5) :=
      Nat.mul_le_mul_right _ hdiv.1
    have e6 : r / 2 ^ (t - 5) * 2 ^ (t - 5) = r := Nat.div_mul_cancel hdvd
    omega

/-- The rounded request is exactly the minimum size of its own bin. -/
theorem round_bin_min (s : Nat) (h1 : 1 ≤ s) (h2 : s ≤ BLOCK_SIZE_MAX)
    (hdvd : 8 ∣ s) :
    mapping_size (mapping (round_block_size s)).1 (mapping (round_block_size s)).2 =
      round_block_size s := by
  have hge := round_ge s h1 h2
  have hle := round_le_max s h1 h2
  apply mapping_size_mapping_eq _ (by omega) hle
  by_cases hs : s < BLOCK_SIZE_SMALL
  · rw [round_small s h1 hs]
    rw [if_pos hs]
    exact hdvd
  · push_neg at hs
    have h38 : s ≤ 2 ^ 38 := by rw [BSM_eq] at h2; exact h2
    have hnotsmall : ¬ round_block_size s < BLOCK_SIZE_SMALL := by
      push_neg
      calc BLOCK_SIZE_SMALL ≤ s := hs
      _ ≤ round_block_size s := hge
    rw [if_neg hnotsmall]
    rw [round_large_eq s hs h38]
    have hs64 : s < 2 ^ 64 := by norm_num at h38 ⊢; omega
    rw [BSS_eq] at hs
    have ht8 : 8 ≤ log2floor s := log2floor_le_of_le 8 s (by norm_num; omega) hs64
    have ht37 : log2floor s ≤ 38 := by
      apply log2floor_lt_of_lt 38 s (by omega) _ hs64
      norm_num at h38 ⊢
      omega
    have hb := log2floor_bounds s (by omega) hs64
    set t := log2floor s with hT
    set r := 2 ^ (t - 5) * ((s + 2 ^ (t - 5) - 1) / 2 ^ (t - 5)) with hR
    have hp : (0 : Nat) < 2 ^ (t - 5) := Nat.pos_pow_of_pos _ (by norm_num)
    have hrge : s ≤ r := by
      rw [hR, ← round_large_eq s (by rw [BSS_eq]; omega) h38]
      exact hge
    have hrle : r ≤ 2 ^ 38 := by
      rw [hR, ← round_large_eq s (by rw [BSS_eq]; omega) h38, ← BSM_eq]
      exact hle
    have hq64 : (s + 2 ^ (t - 5) - 1) / 2 ^ (t - 5) ≤ 64 := by
      have hlt : (s + 2 ^ (t - 5) - 1) / 2 ^ (t - 5) < 65 := by
        rw [Nat.div_lt_iff_lt_mul hp]
        have h65 : (65 : Nat) * 2 ^ (t - 5) = 2 ^ (t + 1) + 2 ^ (t - 5) := by
          calc (65 : Nat) * 2 ^ (t - 5) = 2 ^ 6 * 2 ^ (t - 5) + 2 ^ (t - 5) := by ring
          _ = 2 ^ (6 + (t - 5)) + 2 ^ (t - 5) := by rw [Nat.pow_add]
          _ = 2 ^ (t + 1) + 2 ^ (t - 5) := by
              congr 2
              omega
        have := hb.2
        omega
      omega
    have hr_le : r ≤ 2 ^ (t + 1) := by
      rw [hR]
      calc 2 ^ (t - 5) * ((s + 2 ^ (t - 5) - 1) / 2 ^ (t - 5)) ≤ 2 ^ (t - 5) * 64 :=
        Nat.mul_le_mul_left _ hq64
      _ = 2 ^ (t - 5) * 2 ^ 6 := by norm_num
      _ = 2 ^ ((t - 5) + 6) := by rw [Nat.pow_add]
      _ = 2 ^ (t + 1) := by congr 1; omega
    have hlg_lo : t ≤ log2floor r := by
      apply log2floor_le_of_le
      · calc 2 ^ t ≤ s := hb.1
        _ ≤ r := hrge
      · norm_num at hrle ⊢; omega
    rcases Nat.lt_or_ge r (2 ^ (t + 1)) with hcase | hcase
    · have hlg_hi : log2floor r ≤ t := by
        apply log2floor_lt_of_lt t r (by omega) hcase
        norm_num at hrle ⊢
        omega
      have hlg : log2floor r = t := by omega
      rw [hlg]
      exact ⟨_, hR⟩
    · have hreq : r = 2 ^ (t + 1) := by omega
      have hlg : log2floor r = t + 1 := by
        have hr64 : r < 2 ^ 64 := by norm_num at hrle ⊢; omega
        have hlo : t + 1 ≤ log2floor r := by
          apply log2floor_le_of_le
          · rw [hreq]
          · exact hr64
        have hhi : log2floor r ≤ t + 1 := by
          apply log2floor_lt_of_lt (t + 1) r (by omega) _ hr64
          rw [hreq]
          exact Nat.pow_lt_pow_right (by norm_num) (by omega)
        omega
      rw [hlg, hreq]
      exact pow_dvd_pow 2 (by omega)

/-- Rounding a size that is already a multiple of its granule is the
identity. -/
theorem round_eq_of_dvd (s : Nat) (h1 : BLOCK_SIZE_SMALL ≤ s) (h2 : s ≤ 2 ^ 38)
    (hdvd : 2 ^ (log2floor s - 5) ∣ s) : round_block_size s = s := by
  rw [round_large_eq s h1 h2]
  set k := log2floor s - 5 with hk
  have hp : (0 : Nat) < 2 ^ k := Nat.pos_pow_of_pos _ (by norm_num)
  obtain ⟨c, hc⟩ := hdvd
  have hrw : s + 2 ^ k - 1 = 2 ^ k * c + (2 ^ k - 1) := by omega
  rw [hrw, Nat.mul_add_div hp, Nat.div_eq_of_lt (by omega), Nat.add_zero]
  omega

/-! ## Claim C2: the size-class mapping computation -/

/-- C2: for every size in [BLOCK_SIZE_MIN, BLOCK_SIZE_MAX], the mapping
computes fl = 0, sl = s >> log2(ALIGN) in the linear regime, and
fl = t - FL_SHIFT + 1, sl = (s >> (t - SL_SHIFT)) XOR SL_COUNT with
t = floor(log2 s) in the logarithmic regime; the indices always satisfy
fl < FL_COUNT and sl < SL_COUNT. -/
theorem mapping_spec_claim (s : Nat) (h1 : BLOCK_SIZE_MIN ≤ s)
    (h2 : s ≤ BLOCK_SIZE_MAX) :
    (s < BLOCK_SIZE_SMALL → mapping s = (0, s >>> ALIGN_SHIFT)) ∧
    (BLOCK_SIZE_SMALL ≤ s →
      mapping s = (log2floor s - FL_SHIFT + 1,
        (s >>> (log2floor s - SL_SHIFT)) ^^^ SL_COUNT)) ∧
    (mapping s).1 < FL_COUNT ∧ (mapping s).2 < SL_COUNT := by
  have h1' : 1 ≤ s := by rw [BSMIN_eq] at h1; omega
  refine ⟨fun hs => mapping_small s h1' hs, fun hs => ?_, mapping_bounds s h1' h2⟩
  rw [mapping_large s hs h2]
  have hs64 : s < 2 ^ 64 := by
    rw [BSM_eq] at h2; norm_num at h2 ⊢; omega
  have ht8 : 8 ≤ log2floor s := by
    apply log2floor_le_of_le 8 s _ hs64
    rw [BSS_eq] at hs
    norm_num
    omega
  have hE : log2floor s - 7 = log2floor s - FL_SHIFT + 1 := by
    show _ = log2floor s - 8 + 1
    omega
  rw [hE]
  rfl

theorem mapping_spec_claim_witness :
    BLOCK_SIZE_MIN ≤ 1000 ∧
    mapping 1000 = (log2floor 1000 - FL_SHIFT + 1,
      (1000 >>> (log2floor 1000 - SL_SHIFT)) ^^^ SL_COUNT) :=
  ⟨by decide, (mapping_spec_claim 1000 (by decide) (by decide)).2.1 (by decide)⟩

/-! ## Claim C4: round-trip of mapping_size through mapping -/

/-- C4: every bin's minimum size maps back to exactly that bin, and the
small-size fast path's choice size = sl << ALIGN_SHIFT maps back to bin
(0, sl). -/
theorem mapping_size_roundtrip :
    (∀ fl, fl < FL_COUNT → ∀ sl, sl < SL_COUNT →
      BLOCK_SIZE_MIN ≤ mapping_size fl sl →
      mapping (mapping_size fl sl) = (fl, sl)) ∧
    (∀ sl, sl < SL_COUNT → BLOCK_SIZE_MIN ≤ sl <<< ALIGN_SHIFT →
      mapping (sl <<< ALIGN_SHIFT) = (0, sl)) := by decide

theorem mapping_size_roundtrip_witness :
    mapping (mapping_size 3 5) = (3, 5) ∧ mapping (5 <<< ALIGN_SHIFT) = (0, 5) :=
  ⟨mapping_size_roundtrip.1 3 (by decide) 5 (by decide) (by decide),
   mapping_size_roundtrip.2 5 (by decide) (by decide)⟩

/-! ## Claim C8 (amended): fragmentation bound for exact-bin allocations -/

/-- C8 amended: when the allocation is served from the bin of the rounded
request itself (the case the spec's bound describes), the allocated size is
round_block_size (adjust_size n) - which is that bin's minimum size - and
for n ≥ BLOCK_SIZE_SMALL it is at most 1.05 n (in fact n(1 + 1/32) plus
alignment slack). -/
theorem frag_bound_exact_bin (n : Nat) (h1 : BLOCK_SIZE_SMALL ≤ n)
    (h2 : n ≤ TLSF_MAX_SIZE) :
    mapping_size (mapping (round_block_size (adjust_size n ALIGN_SIZE))).1
        (mapping (round_block_size (adjust_size n ALIGN_SIZE))).2 =
      round_block_size (adjust_size n ALIGN_SIZE) ∧
    20 * round_block_size (adjust_size n ALIGN_SIZE) ≤ 21 * n := by
  rw [BSS_eq] at h1
  obtain ⟨ha_ge, ha_max, ha_min, ha_dvd, ha_ub⟩ := adjust_size_spec n h2
  set a := adjust_size n ALIGN_SIZE with hA
  have ha_ub' : a ≤ n + 7 := by
    have := le_max_left n BLOCK_SIZE_MIN
    have hmx : max n BLOCK_SIZE_MIN = n := by
      rw [BSMIN_eq]
      exact Nat.max_eq_left (by omega)
    rw [hmx] at ha_ub
    exact ha_ub
  have ha1 : 1 ≤ a := by omega
  have ha_bsm : a ≤ BLOCK_SIZE_MAX := by rw [BSM_eq]; rw [MAXSZ_eq] at ha_max; omega
  refine ⟨round_bin_min a ha1 ha_bsm ha_dvd, ?_⟩
  have ha38 : a ≤ 2 ^ 38 := by rw [MAXSZ_eq] at ha_max; norm_num at ha_max ⊢; omega
  have ha256 : 256 ≤ a := by omega
  have hs64 : a < 2 ^ 64 := by norm_num at ha38 ⊢; omega
  have ha38' : a < 2 ^ 38 := by rw [MAXSZ_eq] at ha_max; norm_num at ha_max ⊢; omega
  have ht8 : 8 ≤ log2floor a := log2floor_le_of_le 8 a (by norm_num; omega) hs64
  have hb := log2floor_bounds a (by omega) hs64
  rcases Nat.lt_or_ge a 512 with hcase | hcase
  · -- granule is 8, so rounding is the identity on the 8-aligned value
    have ht9 : log2floor a ≤ 8 := by
      apply log2floor_lt_of_lt 8 a (by omega) _ hs64
      norm_num
      omega
    have hlg : log2floor a = 8 := by omega
    have hr : round_block_size a = a := by
      apply round_eq_of_dvd a (by rw [BSS_eq]; omega) ha38
      rw [hlg]
      norm_num
      exact ha_dvd
    rw [hr]
    omega
  · -- granule is at most a/32
    have hrle := round_le a (by rw [BSS_eq]; omega) ha38
    have hg : 32 * 2 ^ (log2floor a - 5) = 2 ^ log2floor a := by
      calc 32 * 2 ^ (log2floor a - 5) = 2 ^ 5 * 2 ^ (log2floor a - 5) := by norm_num
      _ = 2 ^ (5 + (log2floor a - 5)) := by rw [Nat.pow_add]
      _ = 2 ^ log2floor a := by congr 1; omega
    have hga : 2 ^ log2floor a ≤ a := hb.1
    have h512 : 9 ≤ log2floor a := log2floor_le_of_le 9 a (by norm_num; omega) hs64
    have hge512 : (512 : Nat) ≤ 2 ^ log2floor a :=
      calc (512 : Nat) = 2 ^ 9 := by norm_num
      _ ≤ 2 ^ log2floor a := Nat.pow_le_pow_right (by norm_num) h512
    omega

theorem frag_bound_exact_bin_witness :
    20 * round_block_size (adjust_size 1000 ALIGN_SIZE) ≤ 21 * 1000 :=
  (frag_bound_exact_bin 1000 (by decide) (by decide)).2

/-! ## Heap model

A block is the abstract content of a block header: payload size, the FREE
bit and the PREV_FREE bit.  A pool's physical memory is the list of its
blocks in address order, ending with the zero-size end sentinel.  The
free-list layer is not duplicated in the state: by the code's own
consistency checker a bin's bitmap bit is set exactly when some free block
maps to that bin, so the bitmaps are derived from the block list, and the
model hands out the first suitable block in physical order (the C code
hands out the LIFO head of the same bin). -/

structure Block where
  size : Nat
  free : Bool
  prevFree : Bool
deriving DecidableEq, Repr

structure Pool where
  /-- Aligned start address of the arena (address of the first payload
  minus BLOCK_OVERHEAD, as in tlsf_pool_init). -/
  base : Nat
  /-- Physical blocks in address order; the last element is the sentinel. -/
  blocks : List Block
  /-- Whether t->arena is non-null (fixed-size pool). -/
  isStatic : Bool
deriving DecidableEq, Repr

/-- First level of the bin a block's size maps to. -/
def binFL (b : Block) : Nat := (mapping b.size).1

/-- Second level of the bin a block's size maps to. -/
def binSL (b : Block) : Nat := (mapping b.size).2

/-- Derived second-level bitmap t->sl[f]: bit s is set iff some free block
maps to bin (f, s). -/
def slBitmap (bs : List Block) (f : Nat) : Nat :=
  bs.foldr (fun b acc =>
    if b.free = true ∧ binFL b = f then acc ||| (1 <<< binSL b) else acc) 0

/-- Derived first-level bitmap t->fl: bit f is set iff some free block maps
to first level f. -/
def flBitmap (bs : List Block) : Nat :=
  bs.foldr (fun b acc => if b.free = true then acc ||| (1 <<< binFL b) else acc) 0

/-- Fuel-driven count-trailing-zeros on a 32-bit word. -/
def ctzAux : Nat → Nat → Nat
  | 0, _ => 0
  | fuel + 1, x => if x &&& 1 = 1 then 0 else ctzAux fuel (x / 2) + 1

/-- bitmap_ffs from tlsf.c (builtin ctz on a non-zero uint32). -/
def bitmap_ffs (x : Nat) : Nat := ctzAux 32 x

/-- block_find_suitable from tlsf.c, over the derived bitmaps.  Returns the
bin the block is taken from.  The `32 ≤ fl + 1` guard mirrors the C code's
protection against an undefined shift by 32. -/
def block_find_suitable (bs : List Block) (fl sl : Nat) : Option (Nat × Nat) :=
  let sl_map := slBitmap bs fl &&& shl32 (U32 - 1) sl
  if sl_map ≠ 0 then some (fl, bitmap_ffs sl_map)
  else
    let fl_map := flBitmap bs &&& (if 32 ≤ fl + 1 then 0 else shl32 (U32 - 1) (fl + 1))
    if fl_map = 0 then none
    else
      let fl' := bitmap_ffs fl_map
      some (fl', bitmap_ffs (slBitmap bs fl'))

/-- The two-step scan exactly as the spec (section 4.3) words it, with the
shift amounts interpreted in uint32 arithmetic; used to state the
refinement half of claim C1. -/
def spec_find_suitable (bs : List Block) (fl sl : Nat) : Option (Nat × Nat) :=
  let sl_map := slBitmap bs fl &&& shl32 (U32 - 1) sl
  if sl_map ≠ 0 then some (fl, bitmap_ffs sl_map)
  else
    let fl_map := flBitmap bs &&& shl32 (U32 - 1) (fl + 1)
    if fl_map = 0 then none
    else
      let fl' := bitmap_ffs fl_map
      some (fl', bitmap_ffs (slBitmap bs fl'))

/-- Index (in physical order) of the first free block of bin (f, s); the C
code instead keeps the bin's LIFO list and returns its head. -/
def findFreeIdx (f s : Nat) : List Block → Option Nat
  | [] => none
  | b :: rest =>
    if b.free = true ∧ binFL b = f ∧ binSL b = s then some 0
    else (findFreeIdx f s rest).map (· + 1)

/-- block_find_free from tlsf.c, parameterized by the arena growth
function (arena_grow returns false for static pools; for dynamic pools it
asks the platform resize callback for more memory).  Returns the possibly
grown block list, the index of the found block and the updated request
size mapping_size(fl, sl) of the bin the block came from. -/
def block_find_free (grow : List Block → Nat → Option (List Block))
    (bs : List Block) (size : Nat) : Option (List Block × Nat × Nat) :=
  let r := round_block_size size
  let fl := (mapping r).1
  let sl := (mapping r).2
  match block_find_suitable bs fl sl with
  | some (f, s) =>
    match findFreeIdx f s bs with
    | some i => some (bs, i, mapping_size f s)
    | none => none
  | none =>
    match grow bs r with
    | none => none
    | some bs' =>
      match block_find_suitable bs' fl sl with
      | some (f, s) =>
        match findFreeIdx f s bs' with
        | some i => some (bs', i, mapping_size f s)
        | none => none
      | none => none

/-- Growth function of a static pool: arena_grow bails out immediately
when t->arena is set. -/
def staticGrow : List Block → Nat → Option (List Block) := fun _ _ => none

/-! ### Physical-layout operations (block_set_free, split, merge, trim)

Each operation below acts on the suffix of the block list that starts at
the block being operated on ("segment"), exactly mirroring the header
writes the C function performs. -/

/-- block_set_prev_free applied to the first block of a segment. -/
def setPrevFreeHead (f : Bool) : List Block → List Block
  | [] => []
  | n :: rest => { n with prevFree := f } :: rest

/-- block_set_free on the head of a segment: sets the FREE bit and updates
PREV_FREE of the physically next block. -/
def setFreeSeg (f : Bool) : List Block → List Block
  | [] => []
  | b :: post => { b with free := f } :: setPrevFreeHead f post

/-- block_split on the head of the segment: the head keeps `size` bytes,
the rest becomes a new free block (block_set_free rest true also marks the
next block's PREV_FREE). -/
def splitSeg (size : Nat) : List Block → List Block
  | [] => []
  | b :: post =>
    { b with size := size } ::
      setFreeSeg true (⟨b.size - (size + BLOCK_OVERHEAD), false, false⟩ :: post)

/-- block_merge_next / block_absorb: absorb the next block when free
(flags of the absorbing block are left untouched). -/
def mergeNextSeg : List Block → List Block
  | b :: n :: post =>
    if n.free = true then
      { b with size := b.size + n.size + BLOCK_OVERHEAD } :: post
    else b :: n :: post
  | seg => seg

/-- block_rtrim_free: trim the tail of a free block down to `size`,
leaving the remainder as a new free block. -/
def rtrimFreeSeg (size : Nat) : List Block → List Block
  | [] => []
  | b :: post =>
    if BLOCK_OVERHEAD + TLSF_SPLIT_THRESHOLD + size ≤ b.size then
      match splitSeg size (b :: post) with
      | b' :: rest :: post' => b' :: { rest with prevFree := true } :: post'
      | seg => seg
    else b :: post

/-- block_use: right-trim the free block to `size` and mark it used. -/
def blockUseSeg (size : Nat) (seg : List Block) : List Block :=
  setFreeSeg false (rtrimFreeSeg size seg)

/-- block_rtrim_used: trim the tail of a used block, the remainder is
freed and merged with the next block when that is free. -/
def rtrimUsedSeg (size : Nat) : List Block → List Block
  | [] => []
  | b :: post =>
    if BLOCK_OVERHEAD + TLSF_SPLIT_THRESHOLD + size ≤ b.size then
      match splitSeg size (b :: post) with
      | b' :: rest :: post' =>
        b' :: mergeNextSeg ({ rest with prevFree := false } :: post')
      | seg => seg
    else b :: post

/-- block_ltrim_free: split off an aligned prefix, the first part stays
free, the second part (the eventual allocation) is returned in place. -/
def ltrimFreeSeg (size : Nat) : List Block → List Block
  | [] => []
  | b :: post =>
    match splitSeg (size - BLOCK_OVERHEAD) (b :: post) with
    | b' :: rest :: post' => b' :: { rest with prevFree := true } :: post'
    | seg => seg

/-- The combined ltrim-then-use step of tlsf_aalloc on the found block's
segment. -/
def aallocSeg (ltrimSize adjust : Nat) (seg : List Block) : List Block :=
  match ltrimFreeSeg ltrimSize seg with
  | b' :: restseg => b' :: blockUseSeg adjust restseg
  | [] => []

/-! ### Whole-pool operations -/

/-- Bytes occupied by a list of blocks (payloads plus headers). -/
def blocksBytes : List Block → Nat
  | [] => 0
  | b :: rest => b.size + BLOCK_OVERHEAD + blocksBytes rest

/-- Payload address of block i.  tlsf_pool_init places the first header
word at the arena start, so the first payload is at base + BLOCK_OVERHEAD,
and each further block starts after the previous payload plus one header
word. -/
def payloadAddr (base : Nat) (bs : List Block) (i : Nat) : Nat :=
  base + BLOCK_OVERHEAD + blocksBytes (bs.take i)

/-- tlsf_free body after the null check: mark free, merge with both
physical neighbors, then either shrink the arena (dynamic pool whose last
block became free) or reinsert.  `pre` is the list of blocks before the
freed one, the second argument the segment from the freed block on. -/
def tlsf_free_core (static : Bool) (pre : List Block) : List Block → List Block
  | [] => pre
  | b :: post =>
    let seg1 := setFreeSeg true (b :: post)
    let pre2 := if b.prevFree = true then pre.dropLast else pre
    let seg2 :=
      if b.prevFree = true then
        match pre.getLast?, seg1 with
        | some pb, bb :: post1 =>
          { pb with size := pb.size + bb.size + BLOCK_OVERHEAD } :: post1
        | _, _ => seg1
      else seg1
    let seg3 := mergeNextSeg seg2
    match seg3 with
    | [bb, n] =>
      if n.size = 0 ∧ static = false then
        -- arena_shrink: the coalesced block is returned to the platform and
        -- its header becomes the new end sentinel (or the pool empties).
        if pre2.isEmpty then [] else pre2 ++ [⟨0, false, false⟩]
      else pre2 ++ [bb, n]
    | s => pre2 ++ s

def tlsf_free_at (p : Pool) (i : Nat) : Pool :=
  { p with blocks := tlsf_free_core p.isStatic (p.blocks.take i) (p.blocks.drop i) }

/-- Map a payload address back to a block index (block_from_payload). -/
def idxOfPayload (p : Pool) (addr : Nat) : Option Nat :=
  (List.range p.blocks.length).find? (fun i => payloadAddr p.base p.blocks i == addr)

/-- tlsf_free: null is a no-op; freeing anything that is not a currently
allocated block is undefined behavior in the C code (assertion), modeled
as a no-op. -/
def tlsf_free_ptr (p : Pool) (mem : Nat) : Pool :=
  if mem = 0 then p
  else
    match idxOfPayload p mem with
    | some i =>
      match p.blocks.drop i with
      | b :: _ => if b.free = false ∧ b.size ≠ 0 then tlsf_free_at p i else p
      | [] => p
    | none => p

/-- block_use applied to block i of the pool; returns the payload address
and the final size of the allocated block. -/
def useAt (p : Pool) (i size : Nat) : Option (Nat × Nat) × Pool :=
  match p.blocks.drop i with
  | [] => (none, p)
  | b :: post =>
    let newSeg := blockUseSeg size (b :: post)
    (some (payloadAddr p.base p.blocks i, (newSeg.headD b).size),
     { p with blocks := p.blocks.take i ++ newSeg })

/-- tlsf_malloc from tlsf.c, over a pool whose growth callback refuses
(static pools, or a dynamic pool whose tlsf_resize returns null).  The
result carries the payload address and the allocated block size. -/
def tlsf_malloc (p : Pool) (size0 : Nat) : Option (Nat × Nat) × Pool :=
  let size := adjust_size size0 ALIGN_SIZE
  if TLSF_MAX_SIZE < size then (none, p)
  else if size < BLOCK_SIZE_SMALL ∧
      slBitmap p.blocks 0 &&& shl32 (U32 - 1) (size >>> ALIGN_SHIFT) ≠ 0 then
    -- small-size fast path, taken exactly when its sl_map scan hits;
    -- otherwise the C code falls through to the generic path
    let fsl := bitmap_ffs (slBitmap p.blocks 0 &&&
      shl32 (U32 - 1) (size >>> ALIGN_SHIFT))
    match findFreeIdx 0 fsl p.blocks with
    | some i => useAt p i (fsl <<< ALIGN_SHIFT)
    | none => (none, p)
  else
    match block_find_free staticGrow p.blocks size with
    | none => (none, p)
    | some (bs', i, sz) => useAt { p with blocks := bs' } i sz

/-- tlsf_aalloc from tlsf.c (same growth-refusing pool model). -/
def tlsf_aalloc (p : Pool) (align size0 : Nat) : Option (Nat × Nat) × Pool :=
  let adjust := adjust_size size0 ALIGN_SIZE
  if align = 0 ∨ align &&& (align - 1) ≠ 0 ∨ TLSF_MAX_SIZE < align ∨
      TLSF_MAX_SIZE < SIZEOF_BLOCK ∨
      TLSF_MAX_SIZE - align - SIZEOF_BLOCK < adjust then
    (none, p)
  else if align ≤ ALIGN_SIZE then tlsf_malloc p size0
  else
    let asize := adjust_size (adjust + align - 1 + SIZEOF_BLOCK) align
    match block_find_free staticGrow p.blocks asize with
    | none => (none, p)
    | some (bs', i, _sz) =>
      let p' : Pool := { p with blocks := bs' }
      match p'.blocks.drop i with
      | [] => (none, p')
      | b :: post =>
        let pay := payloadAddr p'.base p'.blocks i
        let mem := align_up (pay + SIZEOF_BLOCK) align
        let seg' := aallocSeg (mem - pay) adjust (b :: post)
        (some (mem, ((seg'.drop 1).headD b).size),
         { p' with blocks := p'.blocks.take i ++ seg' })

/-- The relocation path of tlsf_realloc: allocate, copy (contents are not
modeled), free the old block; on allocation failure nothing happens. -/
def reallocRelocate (p : Pool) (i size : Nat) : Option (Nat × Nat) × Pool :=
  let oldAddr := payloadAddr p.base p.blocks i
  match tlsf_malloc p size with
  | (some (addr, sz), p1) => (some (addr, sz), tlsf_free_ptr p1 oldAddr)
  | (none, p1) => (none, p1)

/-- tlsf_realloc body for a valid allocated block at index i. -/
def tlsf_realloc_at (p : Pool) (i : Nat) (size0 : Nat) : Option (Nat × Nat) × Pool :=
  match p.blocks.drop i with
  | [] => (none, p)
  | b :: post =>
    let avail := b.size
    let size := adjust_size size0 ALIGN_SIZE
    if TLSF_MAX_SIZE < size then (none, p)
    else if avail < size then
      let next := post.headD ⟨0, false, false⟩
      let next_size := if next.free = true then next.size + BLOCK_OVERHEAD else 0
      if next.free = true ∧ size ≤ avail + next_size then
        -- forward expansion
        let seg1 := mergeNextSeg (b :: post)
        let seg2 := match seg1 with
          | bb :: post1 => bb :: setPrevFreeHead false post1
          | [] => []
        let seg3 := rtrimUsedSeg size seg2
        (some (payloadAddr p.base p.blocks i, (seg3.headD b).size),
         { p with blocks := p.blocks.take i ++ seg3 })
      else if b.prevFree = true then
        match (p.blocks.take i).getLast? with
        | none => (none, p)  -- unreachable: PREV_FREE set on the first block
        | some pb =>
          let combined := pb.size + avail + BLOCK_OVERHEAD + next_size
          if size ≤ combined then
            -- backward expansion; data is memmoved into prev's payload
            let merged : Block := ⟨pb.size + avail + BLOCK_OVERHEAD, false, pb.prevFree⟩
            let seg1 := mergeNextSeg (merged :: post)
            let seg2 := match seg1 with
              | bb :: post1 => bb :: setPrevFreeHead false post1
              | [] => []
            let seg3 := rtrimUsedSeg size seg2
            (some (payloadAddr p.base p.blocks (i - 1), (seg3.headD merged).size),
             { p with blocks := (p.blocks.take i).dropLast ++ seg3 })
          else reallocRelocate p i size
      else reallocRelocate p i size
    else
      let seg3 := rtrimUsedSeg size (b :: post)
      (some (payloadAddr p.base p.blocks i, (seg3.headD b).size),
       { p with blocks := p.blocks.take i ++ seg3 })

/-- tlsf_realloc from tlsf.c: size 0 frees, null pointer allocates,
otherwise the in-place / relocation logic runs on the owning block. -/
def tlsf_realloc (p : Pool) (mem size : Nat) : Option (Nat × Nat) × Pool :=
  if mem ≠ 0 ∧ size = 0 then (none, tlsf_free_ptr p mem)
  else if mem = 0 then tlsf_malloc p size
  else
    match idxOfPayload p mem with
    | some i => tlsf_realloc_at p i size
    | none => (none, p)

/-! ### Bitmap and bit-scan lemmas -/

theorem ctzAux_spec (fuel : Nat) : ∀ x, x ≠ 0 → x < 2 ^ fuel →
    x.testBit (ctzAux fuel x) = true := by
  induction fuel with
  | zero =>
    intro x hx h
    norm_num at h
    omega
  | succ n ih =>
    intro x hx h
    unfold ctzAux
    by_cases h1 : x &&& 1 = 1
    · rw [if_pos h1]
      rw [Nat.and_one_is_mod] at h1
      simp [Nat.testBit_zero, h1]
    · rw [if_neg h1]
      rw [Nat.and_one_is_mod] at h1
      have hmod : x % 2 = 0 := by omega
      have hx2 : x / 2 ≠ 0 := by omega
      have hlt2 : x / 2 < 2 ^ n := by
        rw [Nat.pow_succ] at h
        omega
      have := ih (x / 2) hx2 hlt2
      rw [Nat.testBit_add_one]
      exact this

theorem ffs_spec (x : Nat) (hx : x ≠ 0) (hlt : x < 2 ^ 32) :
    x.testBit (bitmap_ffs x) = true :=
  ctzAux_spec 32 x hx hlt

theorem shl32_ge32 (s : Nat) (h : 32 ≤ s) : shl32 (U32 - 1) s = 0 := by
  rw [shl32, Nat.shiftLeft_eq, U32_eq]
  have hs : (2 : Nat) ^ s = 2 ^ 32 * 2 ^ (s - 32) := by
    rw [← Nat.pow_add]
    congr 1
    omega
  rw [hs]
  have hr : (2 ^ 32 - 1) * (2 ^ 32 * 2 ^ (s - 32)) =
      2 ^ 32 * ((2 ^ 32 - 1) * 2 ^ (s - 32)) := by ring
  rw [hr, Nat.mul_mod_right]

theorem testBit_shl32_mask (s j : Nat) (hs : s < 32) :
    (shl32 (U32 - 1) s).testBit j = true ↔ s ≤ j ∧ j < 32 := by
  rw [shl32, U32_eq, Nat.testBit_mod_two_pow, Nat.testBit_shiftLeft,
    Nat.testBit_two_pow_sub_one]
  constructor
  · intro h
    simp only [Bool.and_eq_true, decide_eq_true_eq] at h
    omega
  · intro ⟨h1, h2⟩
    simp only [Bool.and_eq_true, decide_eq_true_eq]
    refine ⟨h2, h1, by omega⟩

theorem testBit_slBitmap (f s : Nat) : ∀ bs : List Block,
    ((slBitmap bs f).testBit s = true ↔
      ∃ b ∈ bs, b.free = true ∧ binFL b = f ∧ binSL b = s)
  | [] => by simp [slBitmap, Nat.zero_testBit]
  | b :: rest => by
    have ih := testBit_slBitmap f s rest
    show ((if b.free = true ∧ binFL b = f then
        slBitmap rest f ||| (1 <<< binSL b) else slBitmap rest f).testBit s = true ↔ _)
    by_cases hb : b.free = true ∧ binFL b = f
    · rw [if_pos hb, Nat.testBit_or]
      have h1 : (1 : Nat) <<< binSL b = 2 ^ binSL b := by
        rw [Nat.shiftLeft_eq, Nat.one_mul]
      rw [h1, Nat.testBit_two_pow]
      simp only [Bool.or_eq_true, decide_eq_true_eq, ih, List.mem_cons]
      constructor
      · rintro (⟨c, hc, hcprop⟩ | hbs)
        · exact ⟨c, Or.inr hc, hcprop⟩
        · exact ⟨b, Or.inl rfl, hb.1, hb.2, hbs⟩
      · rintro ⟨c, (rfl | hc), hcprop⟩
        · exact Or.inr hcprop.2.2
        · exact Or.inl ⟨c, hc, hcprop⟩
    · rw [if_neg hb]
      rw [ih]
      constructor
      · rintro ⟨c, hc, hcprop⟩
        exact ⟨c, List.mem_cons_of_mem _ hc, hcprop⟩
      · rintro ⟨c, hc, hcprop⟩
        rcases List.mem_cons.mp hc with rfl | hc'
        · exact absurd ⟨hcprop.1, hcprop.2.1⟩ hb
        · exact ⟨c, hc', hcprop⟩

theorem testBit_flBitmap (f : Nat) : ∀ bs : List Block,
    ((flBitmap bs).testBit f = true ↔ ∃ b ∈ bs, b.free = true ∧ binFL b = f)
  | [] => by simp [flBitmap, Nat.zero_testBit]
  | b :: rest => by
    have ih := testBit_flBitmap f rest
    show ((if b.free = true then flBitmap rest ||| (1 <<< binFL b)
        else flBitmap rest).testBit f = true ↔ _)
    by_cases hb : b.free = true
    · rw [if_pos hb, Nat.testBit_or]
      have h1 : (1 : Nat) <<< binFL b = 2 ^ binFL b := by
        rw [Nat.shiftLeft_eq, Nat.one_mul]
      rw [h1, Nat.testBit_two_pow]
      simp only [Bool.or_eq_true, decide_eq_true_eq, ih, List.mem_cons]
      constructor
      · rintro (⟨c, hc, hcprop⟩ | hbf)
        · exact ⟨c, Or.inr hc, hcprop⟩
        · exact ⟨b, Or.inl rfl, hb, hbf⟩
      · rintro ⟨c, (rfl | hc), hcprop⟩
        · exact Or.inr hcprop.2
        · exact Or.inl ⟨c, hc, hcprop⟩
    · rw [if_neg hb]
      rw [ih]
      constructor
      · rintro ⟨c, hc, hcprop⟩
        exact ⟨c, List.mem_cons_of_mem _ hc, hcprop⟩
      · rintro ⟨c, hc, hcprop⟩
        rcases List.mem_cons.mp hc with rfl | hc'
        · exact absurd hcprop.1 hb
        · exact ⟨c, hc', hcprop⟩

theorem slBitmap_lt (f : Nat) : ∀ bs : List Block,
    (∀ b ∈ bs, b.free = true → binSL b < 32) → slBitmap bs f < 2 ^ 32
  | [] => fun _ => by simp [slBitmap]
  | b :: rest => fun hwf => by
    have ih := slBitmap_lt f rest (fun c hc => hwf c (List.mem_cons_of_mem _ hc))
    show (if b.free = true ∧ binFL b = f then
        slBitmap rest f ||| (1 <<< binSL b) else slBitmap rest f) < 2 ^ 32
    by_cases hb : b.free = true ∧ binFL b = f
    · rw [if_pos hb]
      apply Nat.or_lt_two_pow ih
      have h1 : (1 : Nat) <<< binSL b = 2 ^ binSL b := by
        rw [Nat.shiftLeft_eq, Nat.one_mul]
      rw [h1]
      exact Nat.pow_lt_pow_right (by norm_num) (hwf b (List.mem_cons_self _ _) hb.1)
    · rw [if_neg hb]; exact ih

theorem flBitmap_lt : ∀ bs : List Block,
    (∀ b ∈ bs, b.free = true → binFL b < 32) → flBitmap bs < 2 ^ 32
  | [] => fun _ => by simp [flBitmap]
  | b :: rest => fun hwf => by
    have ih := flBitmap_lt rest (fun c hc => hwf c (List.mem_cons_of_mem _ hc))
    show (if b.free = true then flBitmap rest ||| (1 <<< binFL b)
        else flBitmap rest) < 2 ^ 32
    by_cases hb : b.free = true
    · rw [if_pos hb]
      apply Nat.or_lt_two_pow ih
      have h1 : (1 : Nat) <<< binFL b = 2 ^ binFL b := by
        rw [Nat.shiftLeft_eq, Nat.one_mul]
      rw [h1]
      exact Nat.pow_lt_pow_right (by norm_num) (hwf b (List.mem_cons_self _ _) hb)
    · rw [if_neg hb]; exact ih

theorem findFreeIdx_some (f s : Nat) : ∀ (bs : List Block) (i : Nat),
    findFreeIdx f s bs = some i →
    ∃ b, bs[i]? = some b ∧ b.free = true ∧ binFL b = f ∧ binSL b = s
  | [], i => by simp [findFreeIdx]
  | b :: rest, i => by
    rw [findFreeIdx]
    by_cases hb : b.free = true ∧ binFL b = f ∧ binSL b = s
    · rw [if_pos hb]
      intro h
      cases h
      exact ⟨b, by simp, hb⟩
    · rw [if_neg hb]
      intro h
      match i, h with
      | i' + 1, h =>
        have hsome : findFreeIdx f s rest = some i' := by
          cases hrec : findFreeIdx f s rest with
          | none => rw [hrec] at h; simp at h
          | some j =>
            rw [hrec] at h
            simp at h
            rw [h]
        obtain ⟨c, hc, hcp⟩ := findFreeIdx_some f s rest i' hsome
        exact ⟨c, by simpa using hc, hcp⟩
      | 0, h =>
        exfalso
        cases hrec : findFreeIdx f s rest with
        | none => rw [hrec] at h; simp at h
        | some j => rw [hrec] at h; simp at h

theorem findFreeIdx_isSome (f s : Nat) : ∀ bs : List Block,
    (∃ b ∈ bs, b.free = true ∧ binFL b = f ∧ binSL b = s) →
    ∃ i, findFreeIdx f s bs = some i
  | [] => by simp
  | b :: rest => by
    rintro ⟨c, hc, hcp⟩
    rw [findFreeIdx]
    by_cases hb : b.free = true ∧ binFL b = f ∧ binSL b = s
    · exact ⟨0, by rw [if_pos hb]⟩
    · rcases List.mem_cons.mp hc with rfl | hc'
      · exact absurd hcp hb
      · obtain ⟨i, hi⟩ := findFreeIdx_isSome f s rest ⟨c, hc', hcp⟩
        exact ⟨i + 1, by rw [if_neg hb, hi]; rfl⟩

/-- The C scan (with its explicit shift-by-32 guard) computes exactly the
spec's two formulas interpreted in uint32 arithmetic. -/
theorem find_suitable_eq_spec (bs : List Block) (fl sl : Nat) :
    block_find_suitable bs fl sl = spec_find_suitable bs fl sl := by
  unfold block_find_suitable spec_find_suitable
  by_cases h32 : 32 ≤ fl + 1
  · rw [if_pos h32, shl32_ge32 (fl + 1) h32]
  · rw [if_neg h32]

theorem find_suitable_sound (bs : List Block) (fl sl f s : Nat)
    (hsl : sl < 32)
    (hwf : ∀ b ∈ bs, b.free = true → binFL b < 32 ∧ binSL b < 32)
    (h : block_find_suitable bs fl sl = some (f, s)) :
    ((f = fl ∧ sl ≤ s) ∨ fl + 1 ≤ f) ∧
    ∃ b ∈ bs, b.free = true ∧ binFL b = f ∧ binSL b = s := by
  have hsl_lt : ∀ g, slBitmap bs g < 2 ^ 32 :=
    fun g => slBitmap_lt g bs (fun b hb hf => (hwf b hb hf).2)
  have hfl_lt : flBitmap bs < 2 ^ 32 :=
    flBitmap_lt bs (fun b hb hf => (hwf b hb hf).1)
  simp only [block_find_suitable] at h
  by_cases hm : slBitmap bs fl &&& shl32 (U32 - 1) sl ≠ 0
  · rw [if_pos hm] at h
    set M := slBitmap bs fl &&& shl32 (U32 - 1) sl with hM
    obtain ⟨hf, hs⟩ : fl = f ∧ bitmap_ffs M = s := by
      cases h
      exact ⟨rfl, rfl⟩
    subst hf hs
    have hMlt : M < 2 ^ 32 := lt_of_le_of_lt Nat.and_le_left (hsl_lt fl)
    have htb := ffs_spec M hm hMlt
    rw [hM, Nat.testBit_and] at htb
    have hboth := Bool.and_eq_true_iff.mp htb
    have hge : sl ≤ bitmap_ffs M ∧ bitmap_ffs M < 32 :=
      (testBit_shl32_mask sl _ hsl).mp hboth.2
    have hex := (testBit_slBitmap fl (bitmap_ffs M) bs).mp hboth.1
    exact ⟨Or.inl ⟨rfl, hge.1⟩, hex⟩
  · rw [if_neg hm] at h
    push_neg at hm
    by_cases h32 : 32 ≤ fl + 1
    · rw [if_pos h32, Nat.and_zero, if_pos rfl] at h
      cases h
    · rw [if_neg h32] at h
      set FM := flBitmap bs &&& shl32 (U32 - 1) (fl + 1) with hFM
      by_cases hfm : FM = 0
      · rw [if_pos hfm] at h
        cases h
      · rw [if_neg hfm] at h
        obtain ⟨hf, hs⟩ : bitmap_ffs FM = f ∧
            bitmap_ffs (slBitmap bs (bitmap_ffs FM)) = s := by
          cases h
          exact ⟨rfl, rfl⟩
        have hFMlt : FM < 2 ^ 32 := lt_of_le_of_lt Nat.and_le_left hfl_lt
        have htb := ffs_spec FM hfm hFMlt
        rw [hFM, Nat.testBit_and] at htb
        have hboth := Bool.and_eq_true_iff.mp htb
        have hge : fl + 1 ≤ bitmap_ffs FM ∧ bitmap_ffs FM < 32 :=
          (testBit_shl32_mask (fl + 1) _ (by omega)).mp hboth.2
        obtain ⟨c, hcmem, hcf, hcF⟩ := (testBit_flBitmap (bitmap_ffs FM) bs).mp hboth.1
        have hslb_ne : slBitmap bs (bitmap_ffs FM) ≠ 0 := by
          intro hz
          have hc : (slBitmap bs (bitmap_ffs FM)).testBit (binSL c) = true :=
            (testBit_slBitmap _ _ bs).mpr ⟨c, hcmem, hcf, hcF, rfl⟩
          rw [hz, Nat.zero_testBit] at hc
          cases hc
        have htb2 := ffs_spec _ hslb_ne (hsl_lt (bitmap_ffs FM))
        have hex := (testBit_slBitmap (bitmap_ffs FM) _ bs).mp htb2
        rw [hf] at hex hge
        rw [hf] at hs
        rw [hs] at hex
        exact ⟨Or.inr hge.1, hex⟩

/-- Soundness of taking the head of the bin the scan chose. -/
theorem pick_sound (bs : List Block) (r f s i : Nat)
    (hwf : ∀ b ∈ bs, b.free = true →
      BLOCK_SIZE_MIN ≤ b.size ∧ b.size ≤ BLOCK_SIZE_MAX)
    (hr1 : 1 ≤ r) (hr2 : r ≤ BLOCK_SIZE_MAX)
    (hbin : mapping_size (mapping r).1 (mapping r).2 = r)
    (hsound : (f = (mapping r).1 ∧ (mapping r).2 ≤ s) ∨ (mapping r).1 + 1 ≤ f)
    (hidx : findFreeIdx f s bs = some i) :
    ∃ b, bs[i]? = some b ∧ b.free = true ∧ mapping b.size = (f, s) ∧
      mapping_size f s ≤ b.size ∧ r ≤ mapping_size f s := by
  obtain ⟨b, hb, hbf, hbF, hbS⟩ := findFreeIdx_some f s bs i hidx
  have hbmem : b ∈ bs := List.getElem?_mem hb
  have hrange := hwf b hbmem hbf
  have hb1 : 1 ≤ b.size := by rw [BSMIN_eq] at hrange; omega
  have hmapb : mapping b.size = (f, s) := by
    rw [← hbF, ← hbS]
    rfl
  have hle : mapping_size f s ≤ b.size := by
    have := mapping_size_mapping_le b.size hb1 hrange.2
    rw [hmapb] at this
    exact this
  have hge : r ≤ mapping_size f s := by
    rcases hsound with ⟨rfl, hss⟩ | hfl
    · calc r = mapping_size (mapping r).1 (mapping r).2 := hbin.symm
      _ ≤ mapping_size (mapping r).1 s := mapping_size_mono_sl _ _ _ hss
    · have hupper := mapping_class_upper r hr1 hr2
      have hf1 : 1 ≤ f := by omega
      calc r ≤ 2 ^ ((mapping r).1 + 8) := le_of_lt hupper
      _ ≤ 2 ^ (f + 7) := Nat.pow_le_pow_right (by norm_num) (by omega)
      _ ≤ mapping_size f s := mapping_size_fl_lower f s hf1
  exact ⟨b, hb, hbf, hmapb, hle, hge⟩

/-! ## Claim C1: the free-block search -/

/-- C1: for every pool state whose free blocks are well-sized and every
adjusted request size n, the search (block_find_suitable inside
block_find_free) follows the spec's two-step bitmap scan, grows the pool
and retries when the first-level scan is empty (returning no block when
growth fails), and every block it returns comes from a bin (f', s') with
block size ≥ mapping_size f' s' ≥ round_block_size n ≥ n. -/
theorem find_free_spec (bs : List Block) (n : Nat)
    (grow : List Block → Nat → Option (List Block))
    (hwf : ∀ b ∈ bs, b.free = true →
      BLOCK_SIZE_MIN ≤ b.size ∧ b.size ≤ BLOCK_SIZE_MAX)
    (hgrow : ∀ r bs', grow bs r = some bs' → ∀ b ∈ bs', b.free = true →
      BLOCK_SIZE_MIN ≤ b.size ∧ b.size ≤ BLOCK_SIZE_MAX)
    (h1 : BLOCK_SIZE_MIN ≤ n) (h2 : n ≤ TLSF_MAX_SIZE) (hdvd : 8 ∣ n) :
    (∀ bs0 fl sl, block_find_suitable bs0 fl sl = spec_find_suitable bs0 fl sl) ∧
    (block_find_suitable bs (mapping (round_block_size n)).1
        (mapping (round_block_size n)).2 = none →
      grow bs (round_block_size n) = none → block_find_free grow bs n = none) ∧
    (∀ bs' i sz, block_find_free grow bs n = some (bs', i, sz) →
      ∃ b f' s', bs'[i]? = some b ∧ b.free = true ∧
        mapping b.size = (f', s') ∧ sz = mapping_size f' s' ∧
        mapping_size f' s' ≤ b.size ∧
        round_block_size n ≤ mapping_size f' s' ∧ n ≤ round_block_size n) := by
  have h1' : 1 ≤ n := by rw [BSMIN_eq] at h1; omega
  have h2' : n ≤ BLOCK_SIZE_MAX := by rw [BSM_eq]; rw [MAXSZ_eq] at h2; omega
  have hr_ge := round_ge n h1' h2'
  have hr_max := round_le_max n h1' h2'
  have hbin := round_bin_min n h1' h2' hdvd
  set r := round_block_size n with hr
  have hr1 : 1 ≤ r := by omega
  have hsl32 : (mapping r).2 < 32 := by
    have := mapping_bounds r hr1 hr_max
    rw [SLC_eq] at this
    exact this.2
  have hwf' : ∀ b ∈ bs, b.free = true → binFL b < 32 ∧ binSL b < 32 := by
    intro b hb hf
    have hrange := hwf b hb hf
    have := mapping_bounds b.size (by rw [BSMIN_eq] at hrange; omega) hrange.2
    rw [FLC_eq, SLC_eq] at this
    exact this
  refine ⟨fun bs0 fl sl => find_suitable_eq_spec bs0 fl sl, ?_, ?_⟩
  · intro hnone hgnone
    simp only [block_find_free]
    rw [← hr, hnone, hgnone]
  · intro bs' i sz hfind
    simp only [block_find_free] at hfind
    rw [← hr] at hfind
    cases hsuit : block_find_suitable bs (mapping r).1 (mapping r).2 with
    | some fs =>
      obtain ⟨f, s⟩ := fs
      simp only [hsuit] at hfind
      cases hidx : findFreeIdx f s bs with
      | none =>
        simp only [hidx] at hfind
        exact Option.noConfusion hfind
      | some j =>
        simp only [hidx] at hfind
        cases hfind
        have hsound := find_suitable_sound bs _ _ f s hsl32 hwf' hsuit
        obtain ⟨b, hb, hbf, hbm, hble, hbge⟩ :=
          pick_sound bs r f s i hwf hr1 hr_max hbin hsound.1 hidx
        exact ⟨b, f, s, hb, hbf, hbm, rfl, hble, hbge, hr_ge⟩
    | none =>
      simp only [hsuit] at hfind
      cases hgw : grow bs r with
      | none =>
        simp only [hgw] at hfind
        exact Option.noConfusion hfind
      | some bs2 =>
        simp only [hgw] at hfind
        have hwf2 : ∀ b ∈ bs2, b.free = true →
            BLOCK_SIZE_MIN ≤ b.size ∧ b.size ≤ BLOCK_SIZE_MAX :=
          hgrow r bs2 hgw
        have hwf2' : ∀ b ∈ bs2, b.free = true → binFL b < 32 ∧ binSL b < 32 := by
          intro b hb hf
          have hrange := hwf2 b hb hf
          have := mapping_bounds b.size (by rw [BSMIN_eq] at hrange; omega) hrange.2
          rw [FLC_eq, SLC_eq] at this
          exact this
        cases hsuit2 : block_find_suitable bs2 (mapping r).1 (mapping r).2 with
        | none =>
          simp only [hsuit2] at hfind
          exact Option.noConfusion hfind
        | some fs =>
          obtain ⟨f, s⟩ := fs
          simp only [hsuit2] at hfind
          cases hidx : findFreeIdx f s bs2 with
          | none =>
            simp only [hidx] at hfind
            exact Option.noConfusion hfind
          | some j =>
            simp only [hidx] at hfind
            cases hfind
            have hsound := find_suitable_sound bs' _ _ f s hsl32 hwf2' hsuit2
            obtain ⟨b, hb, hbf, hbm, hble, hbge⟩ :=
              pick_sound bs' r f s i hwf2 hr1 hr_max hbin hsound.1 hidx
            exact ⟨b, f, s, hb, hbf, hbm, rfl, hble, hbge, hr_ge⟩

theorem find_free_spec_witness :
    ∃ b f' s', ([⟨1024, true, false⟩, ⟨0, false, true⟩] : List Block)[0]? = some b ∧
      b.free = true ∧ mapping b.size = (f', s') ∧ (1024 : Nat) = mapping_size f' s' ∧
      mapping_size f' s' ≤ b.size ∧ round_block_size 264 ≤ mapping_size f' s' ∧
      264 ≤ round_block_size 264 :=
  (find_free_spec [⟨1024, true, false⟩, ⟨0, false, true⟩] 264 staticGrow
    (by decide) (fun r bs' hgw => by simp [staticGrow] at hgw)
    (by decide) (by decide) (by decide)).2.2
    [⟨1024, true, false⟩, ⟨0, false, true⟩] 0 1024 (by decide)

/-! ### Failure atomicity lemmas -/

theorem useAt_pair (p : Pool) (i sz : Nat) (q : Pool)
    (h : useAt p i sz = (none, q)) : q = p := by
  simp only [useAt] at h
  cases hd : p.blocks.drop i with
  | nil =>
    simp only [hd] at h
    cases h
    rfl
  | cons b post =>
    simp only [hd] at h
    have := congrArg Prod.fst h
    simp at this

/-- On a pool whose growth callback refuses, a successful search never
changes the block list. -/
theorem block_find_free_static_same (bs : List Block) (n : Nat)
    (bs' : List Block) (i sz : Nat)
    (h : block_find_free staticGrow bs n = some (bs', i, sz)) : bs' = bs := by
  simp only [block_find_free, staticGrow] at h
  cases hsuit : block_find_suitable bs (mapping (round_block_size n)).1
      (mapping (round_block_size n)).2 with
  | some fs =>
    obtain ⟨f, s⟩ := fs
    simp only [hsuit] at h
    cases hidx : findFreeIdx f s bs with
    | none =>
      simp only [hidx] at h
      exact Option.noConfusion h
    | some j =>
      simp only [hidx] at h
      cases h
      rfl
  | none =>
    simp only [hsuit] at h
    exact Option.noConfusion h

theorem tlsf_malloc_none_unchanged (p : Pool) (n : Nat)
    (h : (tlsf_malloc p n).1 = none) : (tlsf_malloc p n).2 = p := by
  rcases hEq : tlsf_malloc p n with ⟨r, q⟩
  rw [hEq] at h
  subst h
  show q = p
  simp only [tlsf_malloc] at hEq
  repeat' split at hEq
  all_goals try (cases hEq; rfl)
  all_goals try (exact useAt_pair _ _ _ q hEq)
  all_goals rename_i bs2 i2 sz2 hfind
  all_goals have hsame := block_find_free_static_same _ _ _ _ _ hfind
  all_goals subst hsame
  all_goals exact useAt_pair _ _ _ q hEq

theorem reallocRelocate_none (p : Pool) (i sz : Nat) (q : Pool)
    (h : reallocRelocate p i sz = (none, q)) : q = p := by
  simp only [reallocRelocate] at h
  rcases hm : tlsf_malloc p sz with ⟨r, p1⟩
  rw [hm] at h
  cases r with
  | some v =>
    obtain ⟨a, s⟩ := v
    have := congrArg Prod.fst h
    simp at this
  | none =>
    cases h
    have h2 := tlsf_malloc_none_unchanged p sz (by rw [hm])
    rw [hm] at h2
    exact h2

theorem tlsf_realloc_at_none_unchanged (p : Pool) (i n : Nat)
    (h : (tlsf_realloc_at p i n).1 = none) : (tlsf_realloc_at p i n).2 = p := by
  rcases hEq : tlsf_realloc_at p i n with ⟨r, q⟩
  rw [hEq] at h
  subst h
  show q = p
  simp only [tlsf_realloc_at] at hEq
  repeat' split at hEq
  all_goals try (cases hEq; rfl)
  all_goals try (have hf := congrArg Prod.fst hEq; simp at hf)
  all_goals exact reallocRelocate_none _ _ _ q hEq

theorem tlsf_realloc_none_unchanged (p : Pool) (m n : Nat) (hn : 0 < n)
    (h : (tlsf_realloc p m n).1 = none) : (tlsf_realloc p m n).2 = p := by
  rcases hEq : tlsf_realloc p m n with ⟨r, q⟩
  rw [hEq] at h
  subst h
  show q = p
  simp only [tlsf_realloc] at hEq
  split at hEq
  · rename_i hfree
    omega
  · split at hEq
    · have h2 := tlsf_malloc_none_unchanged p n (by rw [hEq])
      rw [hEq] at h2
      exact h2
    · split at hEq
      · rename_i i hidx
        have h2 := tlsf_realloc_at_none_unchanged p i n (by rw [hEq])
        rw [hEq] at h2
        exact h2
      · cases hEq; rfl

theorem tlsf_aalloc_none_unchanged (p : Pool) (a n : Nat)
    (h : (tlsf_aalloc p a n).1 = none) : (tlsf_aalloc p a n).2 = p := by
  rcases hEq : tlsf_aalloc p a n with ⟨r, q⟩
  rw [hEq] at h
  subst h
  show q = p
  simp only [tlsf_aalloc] at hEq
  split at hEq
  · cases hEq; rfl
  · split at hEq
    · have h2 := tlsf_malloc_none_unchanged p n (by rw [hEq])
      rw [hEq] at h2
      exact h2
    · split at hEq
      · cases hEq; rfl
      · rename_i bs2 i2 sz2 hfind
        have hsame := block_find_free_static_same p.blocks _ bs2 i2 sz2 hfind
        subst hsame
        split at hEq
        · cases hEq
          rfl
        · have hf := congrArg Prod.fst hEq
          simp at hf

/-! ## Claim C6 (amended): failures leave the pool unchanged -/

/-- Concrete pools for witnesses and counterexamples: a fresh static pool
with one free 1024-byte block, the same pool with that block allocated,
and a static pool holding a single maximum-size free block. -/
def poolFree : Pool := ⟨1024, [⟨1024, true, false⟩, ⟨0, false, true⟩], true⟩

def poolUsed : Pool := ⟨1024, [⟨1024, false, false⟩, ⟨0, false, false⟩], true⟩

def poolBig : Pool := ⟨1024, [⟨2 ^ 38, true, false⟩, ⟨0, false, true⟩], true⟩

/-- C6 (amended): tlsf_malloc, tlsf_aalloc and - for nonzero sizes -
tlsf_realloc return their failure indicator only with the pool state left
exactly as it was (so a failed realloc leaves the old block allocated in
place, size and contents intact).  The nonzero-size proviso is forced by
the zero-size free semantics (see the counterexample). -/
theorem ops_fail_unchanged :
    (∀ p n, (tlsf_malloc p n).1 = none → tlsf_malloc p n = (none, p)) ∧
    (∀ p a n, (tlsf_aalloc p a n).1 = none → tlsf_aalloc p a n = (none, p)) ∧
    (∀ p m n, 0 < n → (tlsf_realloc p m n).1 = none →
      tlsf_realloc p m n = (none, p)) := by
  refine ⟨fun p n h => ?_, fun p a n h => ?_, fun p m n hn h => ?_⟩
  · calc tlsf_malloc p n = ((tlsf_malloc p n).1, (tlsf_malloc p n).2) := rfl
    _ = (none, p) := by rw [h, tlsf_malloc_none_unchanged p n h]
  · calc tlsf_aalloc p a n = ((tlsf_aalloc p a n).1, (tlsf_aalloc p a n).2) := rfl
    _ = (none, p) := by rw [h, tlsf_aalloc_none_unchanged p a n h]
  · calc tlsf_realloc p m n = ((tlsf_realloc p m n).1, (tlsf_realloc p m n).2) := rfl
    _ = (none, p) := by rw [h, tlsf_realloc_none_unchanged p m n hn h]

theorem ops_fail_unchanged_witness :
    tlsf_malloc poolFree (2 ^ 39) = (none, poolFree) ∧
    tlsf_realloc poolUsed 1032 (2 ^ 39) = (none, poolUsed) :=
  ⟨ops_fail_unchanged.1 poolFree (2 ^ 39) (by decide),
   ops_fail_unchanged.2.2 poolUsed 1032 (2 ^ 39) (by decide) (by decide)⟩

/-- C6 counterexample: tlsf_realloc with size 0 returns null AND mutates
the pool (the block is freed), so "returns null implies the old block
remains allocated" fails at n = 0. -/
theorem realloc_zero_counterexample :
    (tlsf_realloc poolUsed 1032 0).1 = none ∧
    (tlsf_realloc poolUsed 1032 0).2 ≠ poolUsed := by decide

/-! ### C5: zero-size and oversize requests -/

theorem useAt_isSome (p : Pool) (i size : Nat) (b : Block)
    (hb : p.blocks[i]? = some b) : ((useAt p i size).1).isSome = true := by
  have hi : i < p.blocks.length := by
    by_contra hge
    push_neg at hge
    rw [List.getElem?_eq_none hge] at hb
    cases hb
  have hdrop : p.blocks.drop i = b :: p.blocks.drop (i + 1) := by
    rw [List.drop_eq_getElem_cons hi]
    rw [List.getElem?_eq_getElem hi] at hb
    rw [Option.some.injEq] at hb
    rw [hb]
  rw [useAt, hdrop]
  rfl

/-- Completeness of the two-step scan: a well-formed free block whose bin
is at or after (fl, sl) in search order guarantees some bin is returned. -/
theorem find_suitable_complete (bs : List Block) (fl sl : Nat)
    (hsl : sl < 32)
    (hwf : ∀ b ∈ bs, b.free = true → binFL b < 32 ∧ binSL b < 32)
    (b : Block) (hb : b ∈ bs) (hfree : b.free = true)
    (horder : (binFL b = fl ∧ sl ≤ binSL b) ∨ fl + 1 ≤ binFL b) :
    ∃ fs, block_find_suitable bs fl sl = some fs := by
  simp only [block_find_suitable]
  by_cases hm : slBitmap bs fl &&& shl32 (U32 - 1) sl ≠ 0
  · rw [if_pos hm]
    exact ⟨_, rfl⟩
  · rw [if_neg hm]
    push_neg at hm
    rcases horder with ⟨hbf, hbs⟩ | hgt
    · exfalso
      have htb : (slBitmap bs fl).testBit (binSL b) = true :=
        (testBit_slBitmap fl (binSL b) bs).mpr ⟨b, hb, hfree, hbf, rfl⟩
      have hmask : (shl32 (U32 - 1) sl).testBit (binSL b) = true :=
        (testBit_shl32_mask sl (binSL b) hsl).mpr ⟨hbs, (hwf b hb hfree).2⟩
      have hand : (slBitmap bs fl &&& shl32 (U32 - 1) sl).testBit (binSL b) = true := by
        rw [Nat.testBit_and, htb, hmask]
        rfl
      rw [hm, Nat.zero_testBit] at hand
      cases hand
    · have hbfl_lt : binFL b < 32 := (hwf b hb hfree).1
      have h32 : ¬ 32 ≤ fl + 1 := by omega
      rw [if_neg h32]
      have htb : (flBitmap bs).testBit (binFL b) = true :=
        (testBit_flBitmap (binFL b) bs).mpr ⟨b, hb, hfree, rfl⟩
      have hmask : (shl32 (U32 - 1) (fl + 1)).testBit (binFL b) = true :=
        (testBit_shl32_mask (fl + 1) (binFL b) (by omega)).mpr ⟨hgt, hbfl_lt⟩
      have hne : flBitmap bs &&& shl32 (U32 - 1) (fl + 1) ≠ 0 := by
        intro hz
        have hand : (flBitmap bs &&& shl32 (U32 - 1) (fl + 1)).testBit (binFL b) = true := by
          rw [Nat.testBit_and, htb, hmask]
          rfl
        rw [hz, Nat.zero_testBit] at hand
        cases hand
      rw [if_neg hne]
      exact ⟨_, rfl⟩

/-- Every well-sized free block sits at or after bin (0, 3) — the bin of
the minimum block size — in search order. -/
theorem free_block_order_min (b : Block)
    (hmin : BLOCK_SIZE_MIN ≤ b.size) (hmax : b.size ≤ BLOCK_SIZE_MAX) :
    (binFL b = 0 ∧ 3 ≤ binSL b) ∨ 0 + 1 ≤ binFL b := by
  have h1 : 1 ≤ b.size := by rw [BSMIN_eq] at hmin; omega
  rcases Nat.lt_or_ge b.size BLOCK_SIZE_SMALL with hs | hs
  · left
    have hmap := mapping_small b.size h1 hs
    constructor
    · show (mapping b.size).1 = 0
      rw [hmap]
    · show 3 ≤ (mapping b.size).2
      rw [hmap]
      show 3 ≤ b.size >>> ALIGN_SHIFT
      rw [Nat.shiftRight_eq_div_pow]
      rw [BSMIN_eq] at hmin
      show 3 ≤ b.size / 2 ^ 3
      omega
  · right
    have hmap := mapping_large_eq b.size hs hmax
    show 0 + 1 ≤ (mapping b.size).1
    rw [hmap]
    have hs64 : b.size < 2 ^ 64 := by
      rw [BSM_eq] at hmax
      norm_num at hmax ⊢
      omega
    have ht8 : 8 ≤ log2floor b.size := by
      apply log2floor_le_of_le 8 b.size _ hs64
      rw [BSS_eq] at hs
      norm_num
      omega
    show 0 + 1 ≤ log2floor b.size - 7
    omega

/-- A pool whose single free block sits in the minimal bin (0, 3). -/
def pool24 : Pool := ⟨1024, [⟨24, true, false⟩, ⟨0, false, true⟩], true⟩

/-- C5 (amended): a zero-size request is adjusted to the minimum block
size BLOCK_SIZE_MIN and behaves exactly like a request for
BLOCK_SIZE_MIN bytes; the payload is BLOCK_SIZE_MIN when the request is
served from the minimal bin (but can be larger — see the found-bin
counterexample); on any well-formed pool with at least one free block
it succeeds; and every request larger than TLSF_MAX_SIZE — including
values near SIZE_MAX for which aligning up would wrap to zero — returns
null with the pool unchanged (the oversize check precedes the
alignment). -/
theorem malloc_zero_spec :
    adjust_size 0 ALIGN_SIZE = BLOCK_SIZE_MIN ∧
    (∀ p : Pool, tlsf_malloc p 0 = tlsf_malloc p BLOCK_SIZE_MIN) ∧
    (tlsf_malloc pool24 0).1 = some (1032, BLOCK_SIZE_MIN) ∧
    (∀ p : Pool,
      (∀ b ∈ p.blocks, b.free = true →
        BLOCK_SIZE_MIN ≤ b.size ∧ b.size ≤ BLOCK_SIZE_MAX) →
      (∃ b ∈ p.blocks, b.free = true) →
      ((tlsf_malloc p 0).1).isSome = true) ∧
    (∀ (p : Pool) (n : Nat), TLSF_MAX_SIZE < n → tlsf_malloc p n = (none, p)) := by
  refine ⟨by decide, fun p => ?_, by decide, fun p hwf hex => ?_, fun p n h => ?_⟩
  · simp only [tlsf_malloc]
    rw [show adjust_size 0 ALIGN_SIZE = adjust_size BLOCK_SIZE_MIN ALIGN_SIZE from by decide]
  · -- availability of the minimum-size allocation
    obtain ⟨b, hb, hfree⟩ := hex
    obtain ⟨hbmin, hbmax⟩ := hwf b hb hfree
    have hwf' : ∀ c ∈ p.blocks, c.free = true → binFL c < 32 ∧ binSL c < 32 := by
      intro c hc hcf
      obtain ⟨hc1, hc2⟩ := hwf c hc hcf
      have h1 : 1 ≤ c.size := by rw [BSMIN_eq] at hc1; omega
      have := mapping_bounds c.size h1 hc2
      rw [FLC_eq, SLC_eq] at this
      exact this
    simp only [tlsf_malloc]
    rw [show adjust_size 0 ALIGN_SIZE = 24 from by decide]
    rw [if_neg (by decide : ¬ TLSF_MAX_SIZE < 24)]
    rw [show (24 : Nat) >>> ALIGN_SHIFT = 3 from by decide]
    by_cases hfast : slBitmap p.blocks 0 &&& shl32 (U32 - 1) 3 ≠ 0
    · rw [if_pos ⟨by decide, hfast⟩]
      have hMlt : slBitmap p.blocks 0 &&& shl32 (U32 - 1) 3 < 2 ^ 32 :=
        lt_of_le_of_lt Nat.and_le_left
          (slBitmap_lt 0 p.blocks (fun c hc hcf => (hwf' c hc hcf).2))
      have htb := ffs_spec _ hfast hMlt
      rw [Nat.testBit_and] at htb
      have hboth := Bool.and_eq_true_iff.mp htb
      have hex2 := (testBit_slBitmap 0 _ p.blocks).mp hboth.1
      obtain ⟨i, hi⟩ := findFreeIdx_isSome 0 _ p.blocks hex2
      rw [hi]
      obtain ⟨c, hc, _⟩ := findFreeIdx_some 0 _ p.blocks i hi
      exact useAt_isSome p i _ c hc
    · rw [if_neg (fun hh => hfast hh.2)]
      have h24 : round_block_size 24 = 24 := by decide
      have hm1 : (mapping 24).1 = 0 := by decide
      have hm2 : (mapping 24).2 = 3 := by decide
      obtain ⟨⟨f, s⟩, hfs⟩ := find_suitable_complete p.blocks 0 3 (by omega) hwf'
        b hb hfree (free_block_order_min b hbmin hbmax)
      obtain ⟨_, hbin⟩ :=
        find_suitable_sound p.blocks 0 3 f s (by omega) hwf' hfs
      obtain ⟨i, hi⟩ := findFreeIdx_isSome f s p.blocks hbin
      obtain ⟨c, hc, _⟩ := findFreeIdx_some f s p.blocks i hi
      have hbff : block_find_free staticGrow p.blocks 24 =
          some (p.blocks, i, mapping_size f s) := by
        simp only [block_find_free, h24, hm1, hm2, hfs, hi]
      rw [hbff]
      exact useAt_isSome { p with blocks := p.blocks } i _ c hc
  · -- oversize rejection: adjust_size preserves the huge value
    simp only [tlsf_malloc]
    rw [show adjust_size n ALIGN_SIZE = n from by rw [adjust_size, if_pos h]]
    rw [if_pos h]

theorem malloc_zero_spec_witness :
    ((tlsf_malloc poolFree 0).1).isSome = true ∧
    tlsf_malloc poolFree (2 ^ 64 - 8) = (none, poolFree) :=
  ⟨malloc_zero_spec.2.2.2.1 poolFree (by decide)
      ⟨⟨1024, true, false⟩, by decide, rfl⟩,
   malloc_zero_spec.2.2.2.2 poolFree (2 ^ 64 - 8) (by decide)⟩

/-- C5 counterexample: on a pool whose free block lives in a larger bin,
tlsf_malloc(t, 0) succeeds but the allocated payload is the bin's
1024 bytes, not BLOCK_SIZE_MIN (block_find_free resizes the request to
the found bin's mapping_size). -/
theorem malloc_zero_counterexample :
    (tlsf_malloc poolFree 0).1 = some (1032, 1024) ∧
    (1024 : Nat) ≠ BLOCK_SIZE_MIN := by decide

/-! ### C7: alignment semantics of tlsf_aalloc -/

theorem SZB_eq : SIZEOF_BLOCK = 32 := rfl

theorem testBit_of_between (v t : Nat) (h1 : 2 ^ t ≤ v) (h2 : v < 2 ^ (t + 1)) :
    v.testBit t = true := by
  have hdiv : v / 2 ^ t = 1 := by
    apply Nat.div_eq_of_lt_le
    · rw [Nat.one_mul]
      exact h1
    · rw [Nat.pow_succ, Nat.mul_comm] at h2
      exact h2
  rw [Nat.testBit_to_div_mod, hdiv]
  rfl

/-- A nonzero value clearing `x & (x - 1)` is the power of two 2^(log2 x):
the C idiom's bit test characterizes powers of two. -/
theorem pow2_of_and_pred (x : Nat) (hx : 0 < x) (h : x &&& (x - 1) = 0) :
    x = 2 ^ Nat.log 2 x := by
  set t := Nat.log 2 x with ht
  have h1 : 2 ^ t ≤ x := Nat.pow_log_le_self 2 (by omega)
  have h2 : x < 2 ^ (t + 1) := Nat.lt_pow_succ_log_self (by norm_num) x
  by_contra hne
  have hgt : 2 ^ t < x := lt_of_le_of_ne h1 (fun e => hne e.symm)
  have hb1 : x.testBit t = true := testBit_of_between x t h1 h2
  have hb2 : (x - 1).testBit t = true := testBit_of_between (x - 1) t (by omega) (by omega)
  have hand : (x &&& (x - 1)).testBit t = true := by
    rw [Nat.testBit_and, hb1, hb2]
    rfl
  rw [h, Nat.zero_testBit] at hand
  cases hand

theorem blocksBytes_mod (m : Nat) : ∀ bs : List Block,
    (∀ b ∈ bs, b.size % m = 0) → BLOCK_OVERHEAD % m = 0 → blocksBytes bs % m = 0
  | [], _, _ => by rw [blocksBytes, Nat.zero_mod]
  | b :: rest, h, hovh => by
    have ih := blocksBytes_mod m rest (fun c hc => h c (List.mem_cons_of_mem _ hc)) hovh
    have hb := h b (List.mem_cons_self _ _)
    rw [blocksBytes, Nat.add_mod, Nat.add_mod b.size, hb, ih, hovh]
    simp

theorem blocksBytes_take_le (i : Nat) : ∀ bs : List Block,
    blocksBytes (bs.take i) ≤ blocksBytes bs := by
  induction i with
  | zero => intro bs; rw [List.take_zero, blocksBytes]; omega
  | succ n ih =>
    intro bs
    cases bs with
    | nil => rw [List.take_nil]
    | cons b rest =>
      rw [List.take_succ_cons, blocksBytes, blocksBytes]
      have := ih rest
      omega

/-- payload addresses are ALIGN-aligned when the pool base and all block
sizes are. -/
theorem payloadAddr_align (base : Nat) (bs : List Block) (i : Nat)
    (hbase : base % ALIGN_SIZE = 0)
    (hsz : ∀ b ∈ bs, b.size % ALIGN_SIZE = 0) :
    payloadAddr base bs i % ALIGN_SIZE = 0 := by
  have htake : ∀ b ∈ bs.take i, b.size % ALIGN_SIZE = 0 :=
    fun b hb => hsz b (List.mem_of_mem_take hb)
  have hb := blocksBytes_mod ALIGN_SIZE (bs.take i) htake (by decide)
  rw [payloadAddr, Nat.add_mod, Nat.add_mod base, hbase, hb]
  decide

/-- The size of the block that aalloc hands out: the ltrimmed remainder,
right-trimmed to `adj` when the split threshold allows it. -/
theorem aallocSeg_used_size (ls adj : Nat) (b : Block) (post : List Block)
    (hls : BLOCK_OVERHEAD ≤ ls) :
    (((aallocSeg ls adj (b :: post)).drop 1).headD b).size =
      if BLOCK_OVERHEAD + TLSF_SPLIT_THRESHOLD + adj ≤ b.size - ls then adj
      else b.size - ls := by
  have hsz : b.size - (ls - BLOCK_OVERHEAD + BLOCK_OVERHEAD) = b.size - ls := by
    rw [OVH_eq] at hls ⊢
    omega
  simp only [aallocSeg, ltrimFreeSeg, splitSeg, setFreeSeg, hsz,
    blockUseSeg, rtrimFreeSeg]
  by_cases htrim : BLOCK_OVERHEAD + TLSF_SPLIT_THRESHOLD + adj ≤ b.size - ls
  · rw [if_pos htrim, if_pos htrim]
    simp only [splitSeg, setFreeSeg, setPrevFreeHead, List.drop_succ_cons,
      List.drop_zero, List.headD_cons]
  · rw [if_neg htrim, if_neg htrim]
    simp only [setFreeSeg, List.drop_succ_cons, List.drop_zero, List.headD_cons]

theorem useAt_addr (p : Pool) (i size addr sz : Nat)
    (h : (useAt p i size).1 = some (addr, sz)) :
    addr = payloadAddr p.base p.blocks i := by
  rw [useAt] at h
  rcases hdrop : p.blocks.drop i with _ | ⟨b, post⟩ <;> rw [hdrop] at h
  · exact Option.noConfusion h
  · simp only [Option.some.injEq, Prod.mk.injEq] at h
    exact h.1.symm

/-- Every successful tlsf_malloc returns the payload address of some block
of the (unchanged) pool. -/
theorem tlsf_malloc_addr (p : Pool) (n addr sz : Nat)
    (h : (tlsf_malloc p n).1 = some (addr, sz)) :
    ∃ i, addr = payloadAddr p.base p.blocks i := by
  simp only [tlsf_malloc] at h
  split at h
  · exact absurd h (by simp)
  · split at h
    · split at h
      · rename_i i hidx
        exact ⟨i, useAt_addr p i _ addr sz h⟩
      · exact absurd h (by simp)
    · split at h
      · exact absurd h (by simp)
      · rename_i bs' i sz0 hfind
        have hsame := block_find_free_static_same p.blocks _ bs' i sz0 hfind
        subst hsame
        exact ⟨i, useAt_addr { p with blocks := p.blocks } i _ addr sz h⟩

/-- Size soundness of the static search for any request up to
BLOCK_SIZE_MAX (aalloc's internal over-allocation can exceed
TLSF_MAX_SIZE while staying within the maximal bin). -/
theorem find_free_size_chain (bs : List Block) (n : Nat)
    (hwf : ∀ b ∈ bs, b.free = true →
      BLOCK_SIZE_MIN ≤ b.size ∧ b.size ≤ BLOCK_SIZE_MAX)
    (h1 : BLOCK_SIZE_MIN ≤ n) (h2 : n ≤ BLOCK_SIZE_MAX) (hdvd : 8 ∣ n)
    (bs' : List Block) (i sz : Nat)
    (hfind : block_find_free staticGrow bs n = some (bs', i, sz)) :
    ∃ b, bs[i]? = some b ∧ b.free = true ∧ n ≤ sz ∧ sz ≤ b.size := by
  have hsame := block_find_free_static_same bs n bs' i sz hfind
  subst hsame
  have h1' : 1 ≤ n := by rw [BSMIN_eq] at h1; omega
  have hr_ge := round_ge n h1' h2
  have hr_max := round_le_max n h1' h2
  have hbin := round_bin_min n h1' h2 hdvd
  have hwf' : ∀ b ∈ bs', b.free = true → binFL b < 32 ∧ binSL b < 32 := by
    intro c hc hcf
    obtain ⟨hc1, hc2⟩ := hwf c hc hcf
    have hc1' : 1 ≤ c.size := by rw [BSMIN_eq] at hc1; omega
    have := mapping_bounds c.size hc1' hc2
    rw [FLC_eq, SLC_eq] at this
    exact this
  have hsl32 : (mapping (round_block_size n)).2 < 32 := by
    have := mapping_bounds (round_block_size n) (by omega) hr_max
    rw [SLC_eq] at this
    exact this.2
  simp only [block_find_free, staticGrow] at hfind
  cases hsuit : block_find_suitable bs' (mapping (round_block_size n)).1
      (mapping (round_block_size n)).2 with
  | none =>
    simp only [hsuit] at hfind
    exact Option.noConfusion hfind
  | some fs =>
    obtain ⟨f, s⟩ := fs
    simp only [hsuit] at hfind
    cases hidx : findFreeIdx f s bs' with
    | none =>
      simp only [hidx] at hfind
      exact Option.noConfusion hfind
    | some j =>
      simp only [hidx, Option.some.injEq, Prod.mk.injEq] at hfind
      obtain ⟨-, hij, hsz⟩ := hfind
      subst hij
      obtain ⟨hsound, -⟩ :=
        find_suitable_sound bs' (mapping (round_block_size n)).1
          (mapping (round_block_size n)).2 f s hsl32 hwf' hsuit
      obtain ⟨b, hb, hbf, -, hble, hrle⟩ :=
        pick_sound bs' (round_block_size n) f s j hwf (by omega) hr_max hbin
          hsound hidx
      refine ⟨b, hb, hbf, ?_, ?_⟩
      · rw [← hsz]
        omega
      · rw [← hsz]
        exact hble

/-- C7 (amended): (a) an alignment that is zero or not a power of two is
rejected with the pool unchanged; (b) for a valid power-of-two alignment
A ≤ ALIGN whose request passes the global size guard, tlsf_aalloc
behaves exactly as tlsf_malloc (without that proviso the guard rejects
sizes malloc accepts — see the counterexample); (c) on a well-formed
pool every successful allocation with A > ALIGN returns an A-aligned
address with at least n usable bytes; (d) every address tlsf_malloc
returns on an aligned pool is ALIGN-aligned. -/
theorem aalloc_spec :
    (∀ (p : Pool) (a n : Nat), a = 0 ∨ (¬ ∃ j, a = 2 ^ j) →
      tlsf_aalloc p a n = (none, p)) ∧
    (∀ (p : Pool) (a n : Nat), 0 < a → a &&& (a - 1) = 0 → a ≤ ALIGN_SIZE →
      adjust_size n ALIGN_SIZE ≤ TLSF_MAX_SIZE - a - SIZEOF_BLOCK →
      tlsf_aalloc p a n = tlsf_malloc p n) ∧
    (∀ (p : Pool) (a n addr sz : Nat),
      p.base % ALIGN_SIZE = 0 →
      (∀ b ∈ p.blocks, b.size % ALIGN_SIZE = 0) →
      (∀ b ∈ p.blocks, b.free = true →
        BLOCK_SIZE_MIN ≤ b.size ∧ b.size ≤ BLOCK_SIZE_MAX) →
      p.base + blocksBytes p.blocks ≤ 2 ^ 62 →
      ALIGN_SIZE < a →
      (tlsf_aalloc p a n).1 = some (addr, sz) →
      addr % a = 0 ∧ n ≤ sz) ∧
    (∀ (p : Pool) (n addr sz : Nat),
      p.base % ALIGN_SIZE = 0 →
      (∀ b ∈ p.blocks, b.size % ALIGN_SIZE = 0) →
      (tlsf_malloc p n).1 = some (addr, sz) → addr % ALIGN_SIZE = 0) := by
  refine ⟨fun p a n h => ?_, fun p a n ha hpow hle hsz => ?_, ?_,
    fun p n addr sz hb hs h => ?_⟩
  · -- (a) invalid alignment
    simp only [tlsf_aalloc]
    rcases h with rfl | hnp
    · rw [if_pos (Or.inl rfl)]
    · rcases Nat.eq_zero_or_pos a with rfl | hpos
      · rw [if_pos (Or.inl rfl)]
      · have hne : a &&& (a - 1) ≠ 0 :=
          fun hz => hnp ⟨Nat.log 2 a, pow2_of_and_pred a hpos hz⟩
        rw [if_pos (Or.inr (Or.inl hne))]
  · -- (b) small alignments dispatch to malloc
    have hg : ¬ (a = 0 ∨ a &&& (a - 1) ≠ 0 ∨ TLSF_MAX_SIZE < a ∨
        TLSF_MAX_SIZE < SIZEOF_BLOCK ∨
        TLSF_MAX_SIZE - a - SIZEOF_BLOCK < adjust_size n ALIGN_SIZE) := by
      rw [ALSZ_eq] at hle
      rintro (h0 | hp | hmax | hblk | hof)
      · omega
      · exact hp hpow
      · rw [MAXSZ_eq] at hmax
        norm_num at hmax
        omega
      · revert hblk
        decide
      · omega
    simp only [tlsf_aalloc]
    rw [if_neg hg, if_pos hle]
  · -- (c) aligned allocations above ALIGN
    intro p a n addr sz hbase hall hfreewf hbound haa h
    simp only [tlsf_aalloc] at h
    by_cases hg : a = 0 ∨ a &&& (a - 1) ≠ 0 ∨ TLSF_MAX_SIZE < a ∨
        TLSF_MAX_SIZE < SIZEOF_BLOCK ∨
        TLSF_MAX_SIZE - a - SIZEOF_BLOCK < adjust_size n ALIGN_SIZE
    · rw [if_pos hg] at h
      exact absurd h (by simp)
    · rw [if_neg hg] at h
      push_neg at hg
      obtain ⟨h0, hpow, hamax, -, hof⟩ := hg
      rw [if_neg (by omega : ¬ a ≤ ALIGN_SIZE)] at h
      have hpos : 0 < a := Nat.pos_of_ne_zero h0
      obtain ⟨j, ha2⟩ : ∃ j, a = 2 ^ j :=
        ⟨Nat.log 2 a, pow2_of_and_pred a hpos hpow⟩
      subst ha2
      have hj4 : 4 ≤ j := by
        by_contra hlt
        push_neg at hlt
        rw [ALSZ_eq] at haa
        interval_cases j <;> norm_num at haa
      have hj37 : j ≤ 37 := by
        by_contra hgt
        push_neg at hgt
        have hge : (2 : Nat) ^ 38 ≤ 2 ^ j := Nat.pow_le_pow_right (by norm_num) hgt
        rw [MAXSZ_eq] at hamax
        norm_num at hamax hge
        omega
      have hjle : (2 : Nat) ^ j ≤ 2 ^ 37 := Nat.pow_le_pow_right (by norm_num) hj37
      have hj8 : (8 : Nat) ≤ 2 ^ j := by
        calc (8 : Nat) = 2 ^ 3 := by norm_num
        _ ≤ 2 ^ j := Nat.pow_le_pow_right (by norm_num) (by omega)
      -- the request size survives adjustment
      have hnle : n ≤ TLSF_MAX_SIZE := by
        by_contra hgt
        push_neg at hgt
        have heq : adjust_size n ALIGN_SIZE = n := by rw [adjust_size, if_pos hgt]
        rw [MAXSZ_eq, SZB_eq] at hof
        rw [heq] at hof
        rw [MAXSZ_eq] at hgt
        norm_num at hof hgt
        omega
      obtain ⟨hadj_ge, -, hadj_min, hadj_dvd, -⟩ := adjust_size_spec n hnle
      set adjust := adjust_size n ALIGN_SIZE with hadjdef
      have hof' : adjust ≤ 2 ^ 38 - 8 - 2 ^ j - 32 := by
        rw [MAXSZ_eq, SZB_eq] at hof
        exact hof
      have hadj24 : 24 ≤ adjust := by rw [BSMIN_eq] at hadj_min; exact hadj_min
      set X := adjust + 2 ^ j - 1 + SIZEOF_BLOCK with hXdef
      have hX32 : adjust + 2 ^ j + 31 = X := by rw [hXdef, SZB_eq]; omega
      have hXle : X ≤ 2 ^ 38 - 9 := by
        rw [← hX32]
        norm_num at hof' ⊢
        omega
      have hXb : X + 2 ^ j ≤ 2 ^ 64 := by
        norm_num at hXle hjle ⊢
        omega
      have hX1 : 1 ≤ X := by omega
      set asize := adjust_size X (2 ^ j) with hasizedef
      have hau_ge : X ≤ align_up X (2 ^ j) := align_up_ge X j hX1 hXb
      have hau_le : align_up X (2 ^ j) ≤ X + 2 ^ j - 1 := align_up_le X j hX1 hXb
      have hasize_eq : asize = align_up X (2 ^ j) := by
        rw [hasizedef, adjust_size]
        rw [if_neg (by rw [MAXSZ_eq]; norm_num at hXle ⊢; omega :
          ¬ TLSF_MAX_SIZE < X)]
        rw [if_neg (by rw [BSMIN_eq]; omega : ¬ align_up X (2 ^ j) < BLOCK_SIZE_MIN)]
      have hsize_ge : X ≤ asize := by rw [hasize_eq]; exact hau_ge
      have hsize_bsm : asize ≤ BLOCK_SIZE_MAX := by
        rw [hasize_eq, BSM_eq, align_up_eq X j hX1 hXb]
        have hq : (X - 1) / 2 ^ j + 1 ≤ 2 ^ (38 - j) := by
          have hlt : (X - 1) / 2 ^ j < 2 ^ (38 - j) := by
            apply Nat.div_lt_of_lt_mul
            have hpj : (2 : Nat) ^ j * 2 ^ (38 - j) = 2 ^ 38 := by
              rw [← Nat.pow_add]
              congr 1
              omega
            rw [hpj]
            norm_num at hXle ⊢
            omega
          omega
        calc 2 ^ j * ((X - 1) / 2 ^ j) + 2 ^ j = 2 ^ j * ((X - 1) / 2 ^ j + 1) := by ring
        _ ≤ 2 ^ j * 2 ^ (38 - j) := Nat.mul_le_mul_left _ hq
        _ = 2 ^ 38 := by
          rw [← Nat.pow_add]
          congr 1
          omega
      have hmin_asize : BLOCK_SIZE_MIN ≤ asize := by
        rw [BSMIN_eq]
        calc (24 : Nat) ≤ X := by rw [← hX32]; omega
        _ ≤ asize := hsize_ge
      have hdvd_asize : 8 ∣ asize := by
        rw [hasize_eq]
        have hd := align_up_dvd X j hX1 hXb
        exact Nat.dvd_trans (by exact Nat.pow_dvd_pow 2 (by omega) :
          (2 : Nat) ^ 3 ∣ 2 ^ j) (by norm_num at hd ⊢; exact hd)
      rcases hfind : block_find_free staticGrow p.blocks asize with _ | ⟨bs', i, sz0⟩
      · simp [hfind] at h
      · have hsame := block_find_free_static_same p.blocks asize bs' i sz0 hfind
        subst hsame
        obtain ⟨b0, hb0, hb0free, hchain1, hchain2⟩ :=
          find_free_size_chain p.blocks asize hfreewf hmin_asize hsize_bsm
            hdvd_asize p.blocks i sz0 hfind
        rcases hdrop : p.blocks.drop i with _ | ⟨b, post⟩
        · simp [hfind, hdrop] at h
        · simp only [hfind, hdrop, Option.some.injEq, Prod.mk.injEq] at h
          obtain ⟨haddr, hszeq⟩ := h
          have hlen : i < p.blocks.length := by
            by_contra hge
            push_neg at hge
            rw [List.drop_eq_nil_of_le hge] at hdrop
            exact List.noConfusion hdrop
          have hbeq : b = b0 := by
            have hd2 := List.drop_eq_getElem_cons hlen
            have hcons := hdrop.symm.trans hd2
            injection hcons with hb1 _
            rw [List.getElem?_eq_getElem hlen, Option.some.injEq] at hb0
            rw [hb1, hb0]
          subst hbeq
          set pay := payloadAddr p.base p.blocks i with hpaydef
          have hpay_le : pay ≤ p.base + BLOCK_OVERHEAD + blocksBytes p.blocks := by
            rw [hpaydef, payloadAddr]
            have := blocksBytes_take_le i p.blocks
            omega
          have hpay_bound : pay + SIZEOF_BLOCK + 2 ^ j ≤ 2 ^ 64 := by
            rw [SZB_eq, OVH_eq] at *
            norm_num at hbound hjle ⊢
            omega
          have hmem_dvd := align_up_dvd (pay + SIZEOF_BLOCK) j (by omega) hpay_bound
          have hmem_ge := align_up_ge (pay + SIZEOF_BLOCK) j (by omega) hpay_bound
          have hmem_le := align_up_le (pay + SIZEOF_BLOCK) j (by omega) hpay_bound
          constructor
          · -- addr is the aligned mem
            rw [← haddr]
            obtain ⟨k, hk⟩ := hmem_dvd
            rw [hk, Nat.mul_mod_right]
          · -- the allocated size covers n
            have hls8 : BLOCK_OVERHEAD ≤ align_up (pay + SIZEOF_BLOCK) (2 ^ j) - pay := by
              rw [OVH_eq, SZB_eq] at *
              omega
            rw [aallocSeg_used_size _ _ _ _ hls8] at hszeq
            have hb0size : asize ≤ b.size := le_trans hchain1 hchain2
            have hls_le : align_up (pay + SIZEOF_BLOCK) (2 ^ j) - pay ≤ 2 ^ j + 31 := by
              have hszb := SZB_eq
              omega
            have hrest : adjust ≤ b.size - (align_up (pay + SIZEOF_BLOCK) (2 ^ j) - pay) := by
              have : adjust + 2 ^ j + 31 ≤ asize := by rw [hX32]; exact hsize_ge
              omega
            rw [← hszeq]
            split
            · omega
            · omega
  · -- (d) malloc pointers are ALIGN-aligned
    obtain ⟨i, hi⟩ := tlsf_malloc_addr p n addr sz h
    rw [hi]
    exact payloadAddr_align p.base p.blocks i hb hs

/-- C7 counterexample: for A = ALIGN = 8 tlsf_aalloc does NOT behave as
tlsf_malloc on every size: the global guard
`adjust > TLSF_MAX_SIZE - align - sizeof(tlsf_block_t)` runs before the
align ≤ ALIGN dispatch, so aalloc rejects TLSF_MAX_SIZE while malloc
serves it. -/
theorem aalloc_dispatch_counterexample :
    tlsf_aalloc poolBig ALIGN_SIZE TLSF_MAX_SIZE = (none, poolBig) ∧
    ((tlsf_malloc poolBig TLSF_MAX_SIZE).1).isSome = true := by decide

theorem aalloc_spec_witness :
    tlsf_aalloc poolFree 3 100 = (none, poolFree) ∧
    tlsf_aalloc poolFree 8 100 = tlsf_malloc poolFree 100 ∧
    ((1088 : Nat) % 64 = 0 ∧ 100 ≤ 104) ∧
    (1032 : Nat) % ALIGN_SIZE = 0 :=
  ⟨aalloc_spec.1 poolFree 3 100 (Or.inr (by
      rintro ⟨j, hj⟩
      rcases j with _ | _ | j
      · norm_num at hj
      · norm_num at hj
      · have h4 : (4 : Nat) ≤ 2 ^ (j + 2) := by
          calc (4 : Nat) = 2 ^ 2 := by norm_num
          _ ≤ 2 ^ (j + 2) := Nat.pow_le_pow_right (by norm_num) (by omega)
        omega)),
   aalloc_spec.2.1 poolFree 8 100 (by decide) (by decide) (by decide) (by decide),
   aalloc_spec.2.2.1 poolFree 64 100 1088 104 (by decide) (by decide) (by decide)
     (by decide) (by decide) (by decide),
   aalloc_spec.2.2.2 poolFree 100 1032 1024 (by decide) (by decide) (by decide)⟩

/-! ### C10: the aligned-allocation size guard -/

theorem aalloc_guard_reject (p : Pool) (a n : Nat)
    (h : TLSF_MAX_SIZE - a - SIZEOF_BLOCK < adjust_size n ALIGN_SIZE) :
    tlsf_aalloc p a n = (none, p) := by
  simp only [tlsf_aalloc]
  rw [if_pos (Or.inr (Or.inr (Or.inr (Or.inr h))))]

/-- C10: if the adjusted size exceeds `TLSF_MAX_SIZE - A - sizeof(tlsf_block_t)`
then tlsf_aalloc returns null with the pool unchanged; consequently there is a
request size n ≤ TLSF_MAX_SIZE that tlsf_malloc accepts (on a pool with one
maximal free block) yet tlsf_aalloc with A = 16 rejects on every pool; and
whenever the guard passes (with a valid A ≤ TLSF_MAX_SIZE), the internal
over-allocation size `adjust + A - 1 + sizeof(tlsf_block_t)` stays below
2^64, i.e. never overflows size_t. -/
theorem aalloc_reject_bound :
    (∀ (p : Pool) (a n : Nat),
      TLSF_MAX_SIZE - a - SIZEOF_BLOCK < adjust_size n ALIGN_SIZE →
      tlsf_aalloc p a n = (none, p)) ∧
    (∃ n, n ≤ TLSF_MAX_SIZE ∧ (tlsf_malloc poolBig n).1.isSome = true ∧
      ∀ p : Pool, tlsf_aalloc p 16 n = (none, p)) ∧
    (∀ a n : Nat, a ≤ TLSF_MAX_SIZE →
      adjust_size n ALIGN_SIZE ≤ TLSF_MAX_SIZE - a - SIZEOF_BLOCK →
      adjust_size n ALIGN_SIZE + a - 1 + SIZEOF_BLOCK < 2 ^ 64) := by
  refine ⟨fun p a n h => aalloc_guard_reject p a n h, ?_, ?_⟩
  · refine ⟨TLSF_MAX_SIZE, Nat.le_refl _, by decide, fun p => ?_⟩
    exact aalloc_guard_reject p 16 TLSF_MAX_SIZE (by decide)
  · intro a n ha h
    rw [MAXSZ_eq] at ha h
    rw [SZB_eq] at h ⊢
    omega

theorem aalloc_reject_bound_witness :
    tlsf_aalloc poolFree 16 TLSF_MAX_SIZE = (none, poolFree) ∧
    adjust_size 1000 ALIGN_SIZE + 16 - 1 + SIZEOF_BLOCK < 2 ^ 64 :=
  ⟨aalloc_reject_bound.1 poolFree 16 TLSF_MAX_SIZE (by decide),
   aalloc_reject_bound.2.2 16 1000 (by decide) (by decide)⟩

/-- C8 counterexample: requesting 260 bytes from a pool whose free block has
size 1024 succeeds with a usable size of 1024 bytes (the found bin's
mapping_size), so the returned payload exceeds 105% of the request. -/
theorem frag_bound_counterexample :
    (tlsf_malloc poolFree 260).1 = some (1032, 1024) ∧
    21 * 260 < 20 * 1024 := by decide

/-! ### C3: the adjacency / PREV_FREE invariant -/

/-- tlsf_pool_init from tlsf.c (static pool): align the arena start,
round the usable bytes down, carve one free block followed by the end
sentinel whose PREV_FREE bit is set.  Returns none when the arena is too
small (or the block would exceed BLOCK_SIZE_MAX). -/
def tlsf_pool_init (mem bytes : Nat) : Option (Nat × Pool) :=
  let start := align_up mem ALIGN_SIZE
  let adj := start - mem
  if bytes ≤ adj then none
  else
    let pool_bytes := (bytes - adj) - (bytes - adj) % ALIGN_SIZE
    if pool_bytes < 2 * BLOCK_OVERHEAD + BLOCK_SIZE_MIN then none
    else
      let fs0 := pool_bytes - 2 * BLOCK_OVERHEAD
      let free_size := fs0 - fs0 % ALIGN_SIZE
      if free_size < BLOCK_SIZE_MIN ∨ BLOCK_SIZE_MAX < free_size then none
      else some (free_size,
        ⟨start, [⟨free_size, true, false⟩, ⟨0, false, true⟩], true⟩)

/-- FREE flag of the last block of a list (`f` for the empty list): what
the next physical block's PREV_FREE bit has to equal. -/
def lastFree (f : Bool) : List Block → Bool
  | [] => f
  | b :: tl => lastFree b.free tl

/-- The physical-layout invariant, relative to the FREE flag `f` of the
preceding block: each block's PREV_FREE bit equals its physical
predecessor's FREE bit, and no two adjacent blocks are both free. -/
def chain : Bool → List Block → Prop
  | _, [] => True
  | f, b :: tl => b.prevFree = f ∧ (f = true → b.free = false) ∧ chain b.free tl

theorem lastFree_append (f : Bool) : ∀ (xs ys : List Block),
    lastFree f (xs ++ ys) = lastFree (lastFree f xs) ys
  | [], _ => rfl
  | x :: xs, ys => lastFree_append x.free xs ys

theorem chain_append (f : Bool) : ∀ (xs ys : List Block),
    chain f (xs ++ ys) ↔ chain f xs ∧ chain (lastFree f xs) ys
  | [], ys => by
    constructor
    · exact fun h => ⟨trivial, h⟩
    · exact fun h => h.2
  | x :: xs, ys => by
    show (x.prevFree = f ∧ (f = true → x.free = false) ∧ chain x.free (xs ++ ys)) ↔ _
    rw [chain_append x.free xs ys]
    constructor
    · rintro ⟨h1, h2, h3, h4⟩
      exact ⟨⟨h1, h2, h3⟩, h4⟩
    · rintro ⟨⟨h1, h2, h3⟩, h4⟩
      exact ⟨h1, h2, h3, h4⟩

theorem chain_split_at (bs : List Block) (i : Nat) (h : chain false bs) :
    chain false (bs.take i) ∧ chain (lastFree false (bs.take i)) (bs.drop i) := by
  have hx := (chain_append false (bs.take i) (bs.drop i)).mp
  rw [List.take_append_drop] at hx
  exact hx h

theorem chain_setPrevFalse (g : Bool) : ∀ (bs : List Block),
    chain g bs → chain false (setPrevFreeHead false bs)
  | [], _ => trivial
  | c :: tl, h => ⟨rfl, by simp, h.2.2⟩

theorem chain_setPrevTrue : ∀ (bs : List Block),
    chain true bs → chain true (setPrevFreeHead true bs)
  | [], _ => trivial
  | c :: tl, h => ⟨rfl, fun _ => h.2.1 rfl, h.2.2⟩

theorem bool_not_true {x : Bool} (h : ¬ x = true) : x = false := by
  revert h
  cases x <;> simp

/-- Merging a freshly freed block (whose physical predecessor is used)
with its successor restores the invariant of the segment. -/
theorem chain_mergeFreed (H : Block) (post : List Block)
    (hHf : H.free = true) (hHp : H.prevFree = false)
    (hpost : chain false post) :
    chain false (mergeNextSeg (H :: setPrevFreeHead true post)) := by
  cases post with
  | nil => exact ⟨hHp, by simp, trivial⟩
  | cons c tl =>
    obtain ⟨-, -, hc3⟩ := hpost
    show chain false (mergeNextSeg (H :: { c with prevFree := true } :: tl))
    rw [mergeNextSeg]
    split
    · rename_i hcf
      refine ⟨hHp, by simp, ?_⟩
      show chain H.free tl
      have hcf' : c.free = true := hcf
      rw [hHf, ← hcf']
      exact hc3
    · rename_i hcf
      have hcf' : c.free = false := bool_not_true hcf
      refine ⟨hHp, by simp, ?_, fun _ => hcf', hc3⟩
      show ({ c with prevFree := true }).prevFree = H.free
      rw [hHf]

theorem chain_blockUseSeg (sz : Nat) (l : Bool) (b : Block) (post : List Block)
    (hb : b.free = true) (h : chain l (b :: post)) :
    chain l (blockUseSeg sz (b :: post)) := by
  obtain ⟨h1, h2, h3⟩ := h
  show chain l (setFreeSeg false (rtrimFreeSeg sz (b :: post)))
  rw [rtrimFreeSeg]
  split
  · cases post with
    | nil => exact ⟨h1, fun _ => rfl, rfl, by simp, trivial⟩
    | cons c tl =>
      rw [hb] at h3
      exact ⟨h1, fun _ => rfl, rfl, by simp, rfl, fun _ => h3.2.1 rfl, h3.2.2⟩
  · exact ⟨h1, fun _ => rfl, chain_setPrevFalse b.free post h3⟩

/-- blockUseSeg on a free block whose physical predecessor is also free
(the transient state inside tlsf_aalloc between ltrim and use). -/
theorem chain_blockUseSeg_afterFree (sz : Nat) (b : Block) (tl : List Block)
    (hprev : b.prevFree = true) (hb : b.free = true) (htl : chain true tl) :
    chain true (blockUseSeg sz (b :: tl)) := by
  show chain true (setFreeSeg false (rtrimFreeSeg sz (b :: tl)))
  rw [rtrimFreeSeg]
  split
  · cases tl with
    | nil => exact ⟨hprev, fun _ => rfl, rfl, by simp, trivial⟩
    | cons c tl' =>
      exact ⟨hprev, fun _ => rfl, rfl, by simp, rfl, fun _ => htl.2.1 rfl, htl.2.2⟩
  · exact ⟨hprev, fun _ => rfl, chain_setPrevFalse true tl htl⟩

theorem chain_aallocSeg (ls adj : Nat) (l : Bool) (b : Block) (post : List Block)
    (hb : b.free = true) (h : chain l (b :: post)) :
    chain l (aallocSeg ls adj (b :: post)) := by
  obtain ⟨h1, h2, h3⟩ := h
  rw [hb] at h3
  show chain l ({ b with size := ls - BLOCK_OVERHEAD } ::
    blockUseSeg adj
      (⟨b.size - (ls - BLOCK_OVERHEAD + BLOCK_OVERHEAD), true, true⟩ ::
        setPrevFreeHead true post))
  refine ⟨h1, ?_, ?_⟩
  · intro hl
    rw [h2 hl] at hb
    exact Bool.noConfusion hb
  · show chain b.free _
    rw [hb]
    exact chain_blockUseSeg_afterFree adj _ _ rfl rfl (chain_setPrevTrue post h3)

theorem chain_rtrimUsed (sz : Nat) (l : Bool) (b : Block) (post : List Block)
    (hb : b.free = false) (h : chain l (b :: post)) :
    chain l (rtrimUsedSeg sz (b :: post)) := by
  obtain ⟨h1, h2, h3⟩ := h
  rw [rtrimUsedSeg]
  split
  · rw [hb] at h3
    refine ⟨h1, fun _ => hb, ?_⟩
    show chain b.free _
    rw [hb]
    exact chain_mergeFreed ⟨b.size - (sz + BLOCK_OVERHEAD), true, false⟩ post rfl rfl h3
  · exact ⟨h1, h2, h3⟩

theorem drop_head_getElem (bs : List Block) (i : Nat) (b : Block) (post : List Block)
    (hdrop : bs.drop i = b :: post) : bs[i]? = some b := by
  have hlen : i < bs.length := by
    by_contra hge
    push_neg at hge
    rw [List.drop_eq_nil_of_le hge] at hdrop
    exact List.noConfusion hdrop
  have hd2 := List.drop_eq_getElem_cons hlen
  rw [hdrop] at hd2
  injection hd2 with h1 _
  rw [List.getElem?_eq_getElem hlen, h1]

/-- The block that the static search returns is free. -/
theorem block_find_free_free (bs : List Block) (n : Nat) (bs' : List Block)
    (i sz : Nat) (h : block_find_free staticGrow bs n = some (bs', i, sz)) :
    ∃ b, bs[i]? = some b ∧ b.free = true := by
  have hsame := block_find_free_static_same bs n bs' i sz h
  subst hsame
  simp only [block_find_free, staticGrow] at h
  cases hsuit : block_find_suitable bs' (mapping (round_block_size n)).1
      (mapping (round_block_size n)).2 with
  | none =>
    simp only [hsuit] at h
    exact Option.noConfusion h
  | some fs =>
    obtain ⟨f, s⟩ := fs
    simp only [hsuit] at h
    cases hidx : findFreeIdx f s bs' with
    | none =>
      simp only [hidx] at h
      exact Option.noConfusion h
    | some j =>
      simp only [hidx, Option.some.injEq, Prod.mk.injEq] at h
      obtain ⟨-, hij, -⟩ := h
      subst hij
      obtain ⟨b, hb, hbf, -⟩ := findFreeIdx_some f s bs' j hidx
      exact ⟨b, hb, hbf⟩

/-- tlsf_free_core restores the invariant: freeing a used block, merging
with both neighbors and (for dynamic pools) shrinking all keep the chain
intact. -/
theorem chain_free_core (static : Bool) (pre : List Block) (b : Block)
    (post : List Block) (hpre : chain false pre)
    (hseg : chain (lastFree false pre) (b :: post)) (hb : b.free = false) :
    chain false (tlsf_free_core static pre (b :: post)) := by
  obtain ⟨hbp, himp, hpost⟩ := hseg
  rw [hb] at hpost
  simp only [tlsf_free_core, setFreeSeg]
  by_cases hbpf : b.prevFree = true
  · rw [if_pos hbpf, if_pos hbpf]
    have hL : lastFree false pre = true := by rw [← hbp, hbpf]
    have hne : pre ≠ [] := by
      intro e
      rw [e] at hL
      exact Bool.noConfusion hL
    have hgl := List.getLast?_eq_getLast pre hne
    have hdec : pre.dropLast ++ [pre.getLast hne] = pre :=
      List.dropLast_append_getLast hne
    obtain ⟨hpre', hpb1, hpb2, -⟩ :=
      (chain_append false pre.dropLast [pre.getLast hne]).mp
        (by rw [hdec]; exact hpre)
    have hlf : lastFree false pre = (pre.getLast hne).free := by
      conv_lhs => rw [← hdec]
      rw [lastFree_append]
      rfl
    have hpbfree : (pre.getLast hne).free = true := by rw [← hlf]; exact hL
    have hL2 : lastFree false pre.dropLast = false := by
      by_contra hx
      have hx' : lastFree false pre.dropLast = true := by
        revert hx
        cases lastFree false pre.dropLast <;> simp
      have hcf := hpb2 hx'
      rw [hpbfree] at hcf
      exact Bool.noConfusion hcf
    have hpbp : (pre.getLast hne).prevFree = false := by rw [hpb1, hL2]
    simp only [hgl]
    have hm := chain_mergeFreed
      ⟨(pre.getLast hne).size + b.size + BLOCK_OVERHEAD,
        (pre.getLast hne).free, (pre.getLast hne).prevFree⟩
      post hpbfree hpbp hpost
    rcases hshape : mergeNextSeg
        (⟨(pre.getLast hne).size + b.size + BLOCK_OVERHEAD,
            (pre.getLast hne).free, (pre.getLast hne).prevFree⟩ ::
          setPrevFreeHead true post) with _ | ⟨bb, _ | ⟨nn, _ | ⟨x3, rest3⟩⟩⟩ <;>
      rw [hshape] at hm
    · show chain false (pre.dropLast ++ [])
      rw [List.append_nil]
      exact hpre'
    · show chain false (pre.dropLast ++ [bb])
      refine (chain_append false _ _).mpr ⟨hpre', ?_⟩
      rw [hL2]
      exact hm
    · show chain false (if nn.size = 0 ∧ static = false then
        (if pre.dropLast.isEmpty then [] else pre.dropLast ++ [⟨0, false, false⟩])
        else pre.dropLast ++ [bb, nn])
      split
      · split
        · trivial
        · refine (chain_append false _ _).mpr ⟨hpre', ?_⟩
          rw [hL2]
          exact ⟨rfl, by simp, trivial⟩
      · refine (chain_append false _ _).mpr ⟨hpre', ?_⟩
        rw [hL2]
        exact hm
    · show chain false (pre.dropLast ++ (bb :: nn :: x3 :: rest3))
      refine (chain_append false _ _).mpr ⟨hpre', ?_⟩
      rw [hL2]
      exact hm
  · rw [if_neg hbpf, if_neg hbpf]
    have hbf0 : b.prevFree = false := bool_not_true hbpf
    have hL0 : lastFree false pre = false := by rw [← hbp, hbf0]
    have hm := chain_mergeFreed ⟨b.size, true, b.prevFree⟩ post rfl hbf0 hpost
    rcases hshape : mergeNextSeg ((⟨b.size, true, b.prevFree⟩ : Block) ::
        setPrevFreeHead true post)
        with _ | ⟨bb, _ | ⟨nn, _ | ⟨x3, rest3⟩⟩⟩ <;> rw [hshape] at hm
    · show chain false (pre ++ [])
      rw [List.append_nil]
      exact hpre
    · show chain false (pre ++ [bb])
      refine (chain_append false _ _).mpr ⟨hpre, ?_⟩
      rw [hL0]
      exact hm
    · show chain false (if nn.size = 0 ∧ static = false then
        (if pre.isEmpty then [] else pre ++ [⟨0, false, false⟩])
        else pre ++ [bb, nn])
      split
      · split
        · trivial
        · refine (chain_append false _ _).mpr ⟨hpre, ?_⟩
          rw [hL0]
          exact ⟨rfl, by simp, trivial⟩
      · refine (chain_append false _ _).mpr ⟨hpre, ?_⟩
        rw [hL0]
        exact hm
    · show chain false (pre ++ (bb :: nn :: x3 :: rest3))
      refine (chain_append false _ _).mpr ⟨hpre, ?_⟩
      rw [hL0]
      exact hm

theorem chain_useAt (p : Pool) (i sz : Nat) (h : chain false p.blocks)
    (hfree : ∀ b, p.blocks[i]? = some b → b.free = true) :
    chain false ((useAt p i sz).2).blocks := by
  rw [useAt]
  rcases hdrop : p.blocks.drop i with _ | ⟨b, post⟩
  · exact h
  · obtain ⟨hpre, hseg⟩ := chain_split_at p.blocks i h
    rw [hdrop] at hseg
    have hb := hfree b (drop_head_getElem p.blocks i b post hdrop)
    exact (chain_append false _ _).mpr ⟨hpre, chain_blockUseSeg sz _ b post hb hseg⟩

theorem chain_tlsf_malloc (p : Pool) (n : Nat) (h : chain false p.blocks) :
    chain false ((tlsf_malloc p n).2).blocks := by
  simp only [tlsf_malloc]
  split
  · exact h
  · split
    · split
      · rename_i i hidx
        refine chain_useAt p i _ h ?_
        intro b hbeq
        obtain ⟨c, hc, hcf, -⟩ := findFreeIdx_some _ _ p.blocks i hidx
        rw [hc, Option.some.injEq] at hbeq
        rw [← hbeq]
        exact hcf
      · exact h
    · split
      · exact h
      · rename_i bs' i sz hfind
        have hsame := block_find_free_static_same p.blocks _ bs' i sz hfind
        subst hsame
        refine chain_useAt { p with blocks := p.blocks } i sz h ?_
        intro b hbeq
        obtain ⟨c, hc, hcf⟩ := block_find_free_free p.blocks _ p.blocks i sz hfind
        rw [hc, Option.some.injEq] at hbeq
        rw [← hbeq]
        exact hcf

theorem chain_tlsf_aalloc (p : Pool) (a n : Nat) (h : chain false p.blocks) :
    chain false ((tlsf_aalloc p a n).2).blocks := by
  simp only [tlsf_aalloc]
  split
  · exact h
  · split
    · exact chain_tlsf_malloc p n h
    · split
      · exact h
      · rename_i bs' i sz hfind
        have hsame := block_find_free_static_same p.blocks _ bs' i sz hfind
        subst hsame
        split
        · exact h
        · rename_i b post hdrop
          obtain ⟨hpre, hseg⟩ := chain_split_at p.blocks i h
          rw [show ({ p with blocks := p.blocks } : Pool).blocks = p.blocks from rfl] at hdrop
          rw [hdrop] at hseg
          have hb : b.free = true := by
            obtain ⟨c, hc, hcf⟩ := block_find_free_free p.blocks _ p.blocks i sz hfind
            have := drop_head_getElem p.blocks i b post hdrop
            rw [hc, Option.some.injEq] at this
            rw [← this]
            exact hcf
          exact (chain_append false _ _).mpr
            ⟨hpre, chain_aallocSeg _ _ _ b post hb hseg⟩

theorem chain_tlsf_free_ptr (p : Pool) (m : Nat) (h : chain false p.blocks) :
    chain false (tlsf_free_ptr p m).blocks := by
  rw [tlsf_free_ptr]
  split
  · exact h
  · split
    · rename_i i hidx
      split
      · rename_i b post hdrop
        split
        · rename_i hcond
          rw [tlsf_free_at]
          obtain ⟨hpre, hseg⟩ := chain_split_at p.blocks i h
          rw [hdrop] at hseg
          rw [hdrop]
          exact chain_free_core p.isStatic _ b _ hpre hseg hcond.1
        · exact h
      · exact h
    · exact h

theorem chain_reallocRelocate (p : Pool) (i n : Nat) (h : chain false p.blocks) :
    chain false ((reallocRelocate p i n).2).blocks := by
  rw [reallocRelocate]
  rcases hm : tlsf_malloc p n with ⟨res, p1⟩
  have h1 : chain false p1.blocks := by
    have hx := chain_tlsf_malloc p n h
    rw [hm] at hx
    exact hx
  cases res with
  | none => exact h1
  | some r =>
    obtain ⟨addr, sz⟩ := r
    exact chain_tlsf_free_ptr p1 _ h1

theorem chain_tlsf_realloc_at (p : Pool) (i n : Nat) (h : chain false p.blocks)
    (hused : ∀ b post, p.blocks.drop i = b :: post → b.free = false) :
    chain false ((tlsf_realloc_at p i n).2).blocks := by
  simp only [tlsf_realloc_at]
  split
  · exact h
  · rename_i b post hdrop
    have hb := hused b post hdrop
    obtain ⟨hpre, hseg⟩ := chain_split_at p.blocks i h
    rw [hdrop] at hseg
    obtain ⟨h1, h2, h3⟩ := hseg
    rw [hb] at h3
    by_cases hmax : TLSF_MAX_SIZE < adjust_size n ALIGN_SIZE
    · rw [if_pos hmax]
      exact h
    · rw [if_neg hmax]
      by_cases havail : b.size < adjust_size n ALIGN_SIZE
      · rw [if_pos havail]
        rcases post with _ | ⟨c, tl⟩
        · -- no successor block: forward expansion impossible
          rw [if_neg (by simp)]
          have hnil : (if (([] : List Block).headD (⟨0, false, false⟩ : Block)).free = true
              then (([] : List Block).headD (⟨0, false, false⟩ : Block)).size + BLOCK_OVERHEAD
              else 0) = 0 := rfl
          rw [hnil]
          by_cases hbpf : b.prevFree = true
          · rw [if_pos hbpf]
            split
            · exact h
            · rename_i pb hgl
              split
              · -- backward expansion absorbing only the predecessor
                have hne : p.blocks.take i ≠ [] := by
                  intro e
                  rw [e] at hgl
                  exact Option.noConfusion hgl
                have hgl2 := List.getLast?_eq_getLast (p.blocks.take i) hne
                rw [hgl2, Option.some.injEq] at hgl
                have hdec : (p.blocks.take i).dropLast ++
                    [(p.blocks.take i).getLast hne] = p.blocks.take i :=
                  List.dropLast_append_getLast hne
                obtain ⟨hpre2, hpb1, -, -⟩ :=
                  (chain_append false (p.blocks.take i).dropLast
                    [(p.blocks.take i).getLast hne]).mp (by rw [hdec]; exact hpre)
                rw [hgl] at hpb1
                refine (chain_append false _ _).mpr ⟨hpre2, ?_⟩
                exact chain_rtrimUsed _ _ _ _ rfl ⟨hpb1, fun _ => rfl, trivial⟩
              · exact chain_reallocRelocate p i _ h
          · rw [if_neg hbpf]
            exact chain_reallocRelocate p i _ h
        · simp only [List.headD_cons]
          obtain ⟨hc1, -, hc3⟩ := h3
          by_cases hcf : c.free = true
          · rw [if_pos hcf]
            by_cases hfwd : adjust_size n ALIGN_SIZE ≤ b.size + (c.size + BLOCK_OVERHEAD)
            · rw [if_pos ⟨hcf, hfwd⟩]
              have hmerge : mergeNextSeg (b :: c :: tl) =
                  { b with size := b.size + c.size + BLOCK_OVERHEAD } :: tl := by
                rw [mergeNextSeg, if_pos hcf]
              rw [hmerge]
              refine (chain_append false _ _).mpr ⟨hpre, ?_⟩
              refine chain_rtrimUsed _ _ _ _ hb ⟨h1, h2, ?_⟩
              show chain b.free _
              rw [hb]
              rw [hcf] at hc3
              exact chain_setPrevFalse true tl hc3
            · rw [if_neg (fun hx => hfwd hx.2)]
              by_cases hbpf : b.prevFree = true
              · rw [if_pos hbpf]
                split
                · exact h
                · rename_i pb hgl
                  split
                  · -- backward expansion, successor free and absorbed
                    have hne : p.blocks.take i ≠ [] := by
                      intro e
                      rw [e] at hgl
                      exact Option.noConfusion hgl
                    have hgl2 := List.getLast?_eq_getLast (p.blocks.take i) hne
                    rw [hgl2, Option.some.injEq] at hgl
                    have hdec : (p.blocks.take i).dropLast ++
                        [(p.blocks.take i).getLast hne] = p.blocks.take i :=
                      List.dropLast_append_getLast hne
                    obtain ⟨hpre2, hpb1, -, -⟩ :=
                      (chain_append false (p.blocks.take i).dropLast
                        [(p.blocks.take i).getLast hne]).mp (by rw [hdec]; exact hpre)
                    rw [hgl] at hpb1
                    refine (chain_append false _ _).mpr ⟨hpre2, ?_⟩
                    have hmerge : mergeNextSeg
                        ((⟨pb.size + b.size + BLOCK_OVERHEAD, false, pb.prevFree⟩ : Block) ::
                          c :: tl) =
                        ⟨pb.size + b.size + BLOCK_OVERHEAD + c.size + BLOCK_OVERHEAD,
                          false, pb.prevFree⟩ :: tl := by
                      rw [mergeNextSeg, if_pos hcf]
                    rw [hmerge]
                    refine chain_rtrimUsed _ _ _ _ rfl ⟨hpb1, fun _ => rfl, ?_⟩
                    show chain false _
                    rw [hcf] at hc3
                    exact chain_setPrevFalse true tl hc3
                  · exact chain_reallocRelocate p i _ h
              · rw [if_neg hbpf]
                exact chain_reallocRelocate p i _ h
          · rw [if_neg hcf, if_neg (fun hx => hcf hx.1)]
            by_cases hbpf : b.prevFree = true
            · rw [if_pos hbpf]
              split
              · exact h
              · rename_i pb hgl
                split
                · -- backward expansion, successor used and untouched
                  have hne : p.blocks.take i ≠ [] := by
                    intro e
                    rw [e] at hgl
                    exact Option.noConfusion hgl
                  have hgl2 := List.getLast?_eq_getLast (p.blocks.take i) hne
                  rw [hgl2, Option.some.injEq] at hgl
                  have hdec : (p.blocks.take i).dropLast ++
                      [(p.blocks.take i).getLast hne] = p.blocks.take i :=
                    List.dropLast_append_getLast hne
                  obtain ⟨hpre2, hpb1, -, -⟩ :=
                    (chain_append false (p.blocks.take i).dropLast
                      [(p.blocks.take i).getLast hne]).mp (by rw [hdec]; exact hpre)
                  rw [hgl] at hpb1
                  refine (chain_append false _ _).mpr ⟨hpre2, ?_⟩
                  have hmerge : mergeNextSeg
                      ((⟨pb.size + b.size + BLOCK_OVERHEAD, false, pb.prevFree⟩ : Block) ::
                        c :: tl) =
                      ⟨pb.size + b.size + BLOCK_OVERHEAD, false, pb.prevFree⟩ ::
                        c :: tl := by
                    rw [mergeNextSeg, if_neg hcf]
                  rw [hmerge]
                  exact chain_rtrimUsed _ _ _ _ rfl
                    ⟨hpb1, fun _ => rfl, rfl, by simp, hc3⟩
                · exact chain_reallocRelocate p i _ h
            · rw [if_neg hbpf]
              exact chain_reallocRelocate p i _ h
      · rw [if_neg havail]
        refine (chain_append false _ _).mpr ⟨hpre, ?_⟩
        refine chain_rtrimUsed _ _ _ _ hb ⟨h1, h2, ?_⟩
        show chain b.free _
        rw [hb]
        exact h3

theorem chain_tlsf_realloc (p : Pool) (m n : Nat) (h : chain false p.blocks)
    (hvalid : ∀ i, idxOfPayload p m = some i →
      ∀ b post, p.blocks.drop i = b :: post → b.free = false) :
    chain false ((tlsf_realloc p m n).2).blocks := by
  rw [tlsf_realloc]
  split
  · exact chain_tlsf_free_ptr p m h
  · split
    · exact chain_tlsf_malloc p n h
    · split
      · rename_i i hidx
        exact chain_tlsf_realloc_at p i n h (hvalid i hidx)
      · exact h

/-- One user-level allocator call.  The realloc constructor carries the C
contract that a non-null pointer handed to realloc refers to a currently
allocated block (anything else is undefined behavior in tlsf.c). -/
inductive Step : Pool → Pool → Prop where
  | malloc (p : Pool) (n : Nat) : Step p (tlsf_malloc p n).2
  | aalloc (p : Pool) (a n : Nat) : Step p (tlsf_aalloc p a n).2
  | free (p : Pool) (m : Nat) : Step p (tlsf_free_ptr p m)
  | realloc (p : Pool) (m n : Nat)
      (hvalid : ∀ i, idxOfPayload p m = some i →
        ∀ b post, p.blocks.drop i = b :: post → b.free = false) :
      Step p (tlsf_realloc p m n).2

def Reachable (p q : Pool) : Prop := Relation.ReflTransGen Step p q

theorem chain_step (p q : Pool) (hs : Step p q) (h : chain false p.blocks) :
    chain false q.blocks := by
  cases hs with
  | malloc n => exact chain_tlsf_malloc p n h
  | aalloc a n => exact chain_tlsf_aalloc p a n h
  | free m => exact chain_tlsf_free_ptr p m h
  | realloc m n hvalid => exact chain_tlsf_realloc p m n h hvalid

theorem chain_pairwise : ∀ (f : Bool) (bs : List Block), chain f bs →
    ∀ i b b', bs[i]? = some b → bs[i + 1]? = some b' →
      (b.free = true ∧ b'.free = true → False) ∧ b'.prevFree = b.free
  | _, [], _ => by
    intro i b b' hbi
    simp at hbi
  | _, [x], _ => by
    intro i b b' hbi hbi'
    rcases i with _ | i <;> simp at hbi'
  | f, x :: y :: tl, h => by
    intro i b b' hbi hbi'
    cases i with
    | zero =>
      simp only [List.getElem?_cons_zero, Option.some.injEq] at hbi
      simp only [List.getElem?_cons_succ, List.getElem?_cons_zero,
        Option.some.injEq] at hbi'
      rw [← hbi, ← hbi']
      refine ⟨fun hff => ?_, h.2.2.1⟩
      have hy := h.2.2.2.1 hff.1
      rw [hff.2] at hy
      exact Bool.noConfusion hy
    | succ j =>
      exact chain_pairwise x.free (y :: tl) h.2.2 j b b'
        (by simpa using hbi) (by simpa using hbi')

/-- C3: from any successfully initialized pool, after any sequence of
tlsf_malloc, tlsf_aalloc, tlsf_realloc and tlsf_free calls (with
realloc applied to currently allocated pointers, as the C contract
requires), physically adjacent blocks are never both free, and every
block's PREV_FREE bit equals the FREE bit of its physical
predecessor. -/
theorem adjacency_invariant (mem bytes us : Nat) (p0 q : Pool)
    (hinit : tlsf_pool_init mem bytes = some (us, p0))
    (hreach : Reachable p0 q) :
    ∀ i b b', q.blocks[i]? = some b → q.blocks[i + 1]? = some b' →
      (b.free = true ∧ b'.free = true → False) ∧ b'.prevFree = b.free := by
  have hchain0 : chain false p0.blocks := by
    simp only [tlsf_pool_init] at hinit
    repeat' split at hinit
    all_goals try exact Option.noConfusion hinit
    rw [Option.some.injEq, Prod.mk.injEq] at hinit
    obtain ⟨-, hp0⟩ := hinit
    rw [← hp0]
    exact ⟨rfl, by simp, rfl, fun _ => rfl, trivial⟩
  have hchain : chain false q.blocks := by
    induction hreach with
    | refl => exact hchain0
    | tail _ hstep ih => exact chain_step _ _ hstep ih
  exact fun i b b' h1 h2 => chain_pairwise false q.blocks hchain i b b' h1 h2

/-- The pool tlsf_pool_init carves out of a 1056-byte arena at 1016. -/
def p3init : Pool := ⟨1016, [⟨1040, true, false⟩, ⟨0, false, true⟩], true⟩

theorem adjacency_invariant_witness :
    (((⟨1040, false, false⟩ : Block).free = true ∧
        (⟨0, false, false⟩ : Block).free = true → False) ∧
      (⟨0, false, false⟩ : Block).prevFree = (⟨1040, false, false⟩ : Block).free) :=
  adjacency_invariant 1016 1056 1040 p3init (tlsf_malloc p3init 100).2
    (by decide)
    (Relation.ReflTransGen.single (Step.malloc p3init 100))
    0 ⟨1040, false, false⟩ ⟨0, false, false⟩ (by decide) (by decide)

/-! ### C9: the thread-sharding layer (tlsf_thread.c)

Locks are erased (each lock-protected call is atomic here), the try-lock
phase and the blocking phase of the fallback scan collapse into one scan,
and memcpy of payload contents is not modeled. -/

structure Arena where
  base : Nat
  capacity : Nat
  pool : Pool
deriving Repr, DecidableEq

structure ThreadState where
  arenas : List Arena
deriving Repr, DecidableEq

/-- arena_select's mixing hash of the thread hint (uint32 arithmetic). -/
def mix32 (h : Nat) : Nat :=
  let h1 := (h ^^^ (h >>> 16)) % U32
  let h2 := (h1 * 0x45d9f3b) % U32
  (h2 ^^^ (h2 >>> 16)) % U32

def arena_select (ts : ThreadState) (hint : Nat) : Nat :=
  mix32 hint % ts.arenas.length

/-- arena_find from tlsf_thread.c: index of the first arena whose address
range [base, base + capacity) contains the pointer. -/
def arena_find (ts : ThreadState) (ptr : Nat) : Option Nat :=
  ts.arenas.findIdx? (fun a => decide (a.base ≤ ptr) && decide (ptr - a.base < a.capacity))

def arenaMallocAt (ts : ThreadState) (i size : Nat) :
    Option (Nat × Nat) × ThreadState :=
  match ts.arenas[i]? with
  | none => (none, ts)
  | some a =>
    match tlsf_malloc a.pool size with
    | (res, p') => (res, ⟨ts.arenas.set i { a with pool := p' }⟩)

def arenaFreeAt (ts : ThreadState) (i ptr : Nat) : ThreadState :=
  match ts.arenas[i]? with
  | none => ts
  | some a => ⟨ts.arenas.set i { a with pool := tlsf_free_ptr a.pool ptr }⟩

def arenaReallocAt (ts : ThreadState) (i ptr size : Nat) :
    Option (Nat × Nat) × ThreadState :=
  match ts.arenas[i]? with
  | none => (none, ts)
  | some a =>
    match tlsf_realloc a.pool ptr size with
    | (res, p') => (res, ⟨ts.arenas.set i { a with pool := p' }⟩)

/-- The fallback scan order (skip + i) % count for i = 1 .. count - 1. -/
def threadFallbackIdxs (count skip : Nat) : List Nat :=
  ((List.range count).drop 1).map (fun i => (skip + i) % count)

def tlsf_thread_malloc (ts : ThreadState) (hint size : Nat) :
    Option (Nat × Nat) × ThreadState :=
  if ts.arenas.length = 0 then (none, ts)
  else
    let pref := arena_select ts hint
    match arenaMallocAt ts pref size with
    | (some r, ts') => (some r, ts')
    | (none, ts') =>
      (threadFallbackIdxs ts.arenas.length pref).foldl
        (fun acc i =>
          match acc with
          | (some r, t) => (some r, t)
          | (none, t) => arenaMallocAt t i size) (none, ts')

def tlsf_thread_free (ts : ThreadState) (ptr : Nat) : ThreadState :=
  if ptr = 0 then ts
  else
    match arena_find ts ptr with
    | none => ts
    | some i => arenaFreeAt ts i ptr

def tlsf_thread_realloc (ts : ThreadState) (hint ptr size : Nat) :
    Option (Nat × Nat) × ThreadState :=
  if ptr = 0 then tlsf_thread_malloc ts hint size
  else if size = 0 then (none, tlsf_thread_free ts ptr)
  else
    match arena_find ts ptr with
    | none => (none, ts)
    | some i =>
      match arenaReallocAt ts i ptr size with
      | (some r, ts') => (some r, ts')
      | (none, ts') =>
        match tlsf_thread_malloc ts' hint size with
        | (none, ts'') => (none, ts'')
        | (some r, ts'') => (some r, arenaFreeAt ts'' i ptr)

/-- C9: a non-null pointer lying outside the [base, base + capacity)
range of every arena is not found by arena_find, so tlsf_thread_free
leaves every arena's pool unchanged, and tlsf_thread_realloc with any
nonzero size and any thread hint returns null and changes nothing. -/
theorem thread_foreign_ptr_spec (ts : ThreadState) (ptr : Nat)
    (hptr : ptr ≠ 0)
    (hout : ∀ a ∈ ts.arenas, ¬ (a.base ≤ ptr ∧ ptr - a.base < a.capacity)) :
    tlsf_thread_free ts ptr = ts ∧
    ∀ hint n, 0 < n → tlsf_thread_realloc ts hint ptr n = (none, ts) := by
  have hfind : arena_find ts ptr = none := by
    rw [arena_find, List.findIdx?_eq_none_iff]
    intro a ha
    have h := hout a ha
    by_cases h1 : a.base ≤ ptr
    · by_cases h2 : ptr - a.base < a.capacity
      · exact absurd ⟨h1, h2⟩ h
      · simp [h1, h2]
    · simp [h1]
  constructor
  · rw [tlsf_thread_free, if_neg hptr, hfind]
  · intro hint n hn
    rw [tlsf_thread_realloc, if_neg hptr, if_neg (by omega : ¬ n = 0), hfind]

/-- One-arena shard state over the standard one-free-block pool. -/
def tsOne : ThreadState := ⟨[⟨1024, 1040, poolFree⟩]⟩

theorem thread_foreign_ptr_witness :
    tlsf_thread_free tsOne 5000 = tsOne ∧
    tlsf_thread_realloc tsOne 0 5000 100 = (none, tsOne) :=
  ⟨(thread_foreign_ptr_spec tsOne 5000 (by decide) (by decide)).1,
   (thread_foreign_ptr_spec tsOne 5000 (by decide) (by decide)).2 0 100 (by decide)⟩

example : SL_COUNT = 32 := rfl
example : FL_COUNT = 32 := rfl
example : BLOCK_SIZE_SMALL = 256 := rfl
example : BLOCK_SIZE_MAX = 2 ^ 38 := rfl
example : TLSF_MAX_SIZE = 2 ^ 38 - 8 := rfl
example : adjust_size 0 ALIGN_SIZE = 24 := by decide
example : adjust_size 100 ALIGN_SIZE = 104 := by decide
example : round_block_size 264 = 264 := by decide
example : round_block_size 1000 = 1008 := by decide
example : mapping 264 = (1, 1) := by decide
example : mapping 1024 = (3, 0) := by decide
example : mapping 100 = (0, 12) := by decide
example : mapping_size 3 0 = 1024 := by decide
example : mapping_size 1 1 = 264 := by decide

end Tlsf
